import Mathlib

/-!
# Barch: a bit-packed codec for bi-level raster images

A shallow embedding of `barch.cpp` (namespace `Barch`): the bit accessor `Bitter`,
`bytesTaken`, `compress` and `uncompress`, followed by the theorems about them.

Conventions of the embedding.

* A byte (`unsigned char`) is a natural number; every store into a byte buffer
  reduces modulo 256, as the conversion to `unsigned char` does.
* An owned allocation (`std::vector`, `make_unique<unsigned char[]>`) is a
  `List Nat` of exactly the allocated length. A store through a pointer at an
  offset outside the allocation is dropped and a load there yields 0 in the
  writers of `Bitter`; the encoder performs such an access only as a
  read-modify-write that stores back the value it loaded.
* The input of `uncompress` is a pointer together with `size_bytes`. The pointer
  is a function from byte offsets to bytes, so that a load past `size_bytes`
  has a value (whatever lies behind the buffer); the offsets loaded are recorded
  in a trace next to the result.
* The byte offsets that `compress` touches in its scratch buffer and in its output
  vector are given by separate trace functions (`compress_row_accesses`,
  `compress_iter_accesses`) that follow the same control flow.
* `int` values of the header are integers, stored as four little-endian bytes in
  two's complement. Products and sums of image dimensions are exact (no
  wraparound), which agrees with the source as long as `width * height` and
  `8 * width` fit in `int`.
* `max_row_len_bytes` is computed in `double` in the source; the embedding takes
  the ceiling of the exact quotient.
-/

namespace Barch

/-! ## Constants and data model -/

/-- The magic tag `barch_format_id`. -/
def barch_format_id : Nat := 0xBA

/-- Pixels per chunk, `chunk_size_bytes`. -/
def chunk_size_bytes : Nat := 4

/-- Offset of the width field: `sizeof(char)`. -/
def offset_width : Nat := 1

/-- Offset of the height field: `sizeof(char) + sizeof(int)`. -/
def offset_height : Nat := 1 + 4

/-- Offset of the payload: `sizeof(char) + sizeof(int) * 2`. -/
def offset_data : Nat := 1 + 4 * 2

/-- Bits per byte. -/
def CHAR_BIT : Nat := 8

/-- The struct `RawImageData`: dimensions and a borrowed pixel pointer, `none` being `nullptr`. -/
structure RawImageData where
  width : Int
  height : Int
  data : Option (List Nat)

/-- The struct `RawImage`: dimensions and the owned pixel buffer, `none` being `nullptr`. -/
structure RawImage where
  width : Int
  height : Int
  raw_data : Option (List Nat)
deriving DecidableEq

/-- The struct `CompressedImageData`: a byte count and a borrowed pointer, `none` being
`nullptr`. The pointer maps a byte offset to the byte stored there. -/
structure CompressedImageData where
  size_bytes : Nat
  data : Option (Nat → Nat)

/-- The struct `CompressedImage`: a byte count and the owned buffer, `none` being `nullptr`. -/
structure CompressedImage where
  size_bytes : Nat
  compressed_data : Option (List Nat)
deriving DecidableEq

/-- The method `RawImage::data`. -/
def RawImage.data (r : RawImage) : RawImageData :=
  ⟨r.width, r.height, r.raw_data⟩

/-- The pointer to an owned buffer `buf`: offsets inside the allocation load the stored
byte, offsets outside load whatever `beyond` holds there. -/
def pointer_to (buf : List Nat) (beyond : Nat → Nat) : Nat → Nat :=
  fun i => buf.getD i (beyond i)

/-- The method `CompressedImage::data`; `beyond` is the memory behind the allocation. -/
def CompressedImage.data (c : CompressedImage) (beyond : Nat → Nat) : CompressedImageData :=
  ⟨c.size_bytes, c.compressed_data.map (fun buf => pointer_to buf beyond)⟩

/-- The four bytes `memcpy` copies out of an `int` (little-endian two's complement). -/
def int_bytes (x : Int) : List Nat :=
  let u := (x % 4294967296).toNat
  [u % 256, u / 256 % 256, u / 65536 % 256, u / 16777216 % 256]

/-- The `int` that `memcpy` assembles from the four bytes at `data + off`. -/
def load_int (data : Nat → Nat) (off : Nat) : Int :=
  let u := data off % 256 + 256 * (data (off + 1) % 256) + 65536 * (data (off + 2) % 256)
    + 16777216 * (data (off + 3) % 256)
  if u < 2147483648 then (u : Int) else (u : Int) - 4294967296

/-- The conversion of an `int` to `size_t` (64 bits). -/
def to_size_t (x : Int) : Nat := (x % 18446744073709551616).toNat

/-- Copy `vals` into `buf` from offset `off` on (`memcpy`, `memset`, stores through `dst`). -/
def store (buf : List Nat) (off : Nat) (vals : List Nat) : List Nat :=
  buf.take off ++ vals ++ buf.drop (off + vals.length)

/-- The call `vector::resize`: truncate, or pad with zero bytes. -/
def resize (v : List Nat) (n : Nat) : List Nat :=
  v.take n ++ List.replicate (n - v.length) 0

/-! ## The bit accessor -/

namespace Bitter

/-- The read-modify-write `data[i] op= ...` of one byte of an allocation. -/
def modify (data : List Nat) (i : Nat) (f : Nat → Nat) : List Nat :=
  data.set i (f (data.getD i 0) % 256)

/-- The method `Bitter::read`. -/
def read (data : Nat → Nat) (bit : Nat) : Bool :=
  (data (bit / CHAR_BIT) &&& (1 <<< (bit % CHAR_BIT))) != 0

/-- The method `Bitter::read_chunk`, returning the bytes stored through `dst`. -/
def read_chunk (data : Nat → Nat) (bit : Nat) : Nat → List Nat
  | 0 => []
  | len_bytes + 1 =>
    let bit_shift := bit % CHAR_BIT
    let dst := (data (bit / CHAR_BIT) >>> bit_shift) % 256
    let bit := bit + CHAR_BIT
    let dst := (dst ||| ((data (bit / CHAR_BIT) <<< (CHAR_BIT - bit_shift)) &&& 0xFF)) % 256
    dst :: read_chunk data bit len_bytes

/-- The byte offsets loaded by `Bitter::read_chunk`, in order. -/
def read_chunk_loads (bit : Nat) : Nat → List Nat
  | 0 => []
  | len_bytes + 1 =>
    bit / CHAR_BIT :: (bit + CHAR_BIT) / CHAR_BIT :: read_chunk_loads (bit + CHAR_BIT) len_bytes

/-- The method `Bitter::set`. -/
def set (data : List Nat) (bit : Nat) : List Nat :=
  modify data (bit / CHAR_BIT) (fun b => b ||| (1 <<< (bit % CHAR_BIT)))

/-- The method `Bitter::clear`; the complement is taken in 32-bit `unsigned`. -/
def clear (data : List Nat) (bit : Nat) : List Nat :=
  modify data (bit / CHAR_BIT) (fun b => b &&& (0xFFFFFFFF ^^^ (1 <<< (bit % CHAR_BIT))))

/-- The method `Bitter::write_chunk`; `src` is the source pointer, advanced by `++src`. -/
def write_chunk (data : List Nat) (bit : Nat) (src : List Nat) : Nat → List Nat
  | 0 => data
  | len_bytes + 1 =>
    let bit_shift := bit % CHAR_BIT
    let s := src.headD 0
    let data := modify data (bit / CHAR_BIT) (fun b => b &&& (0xFF >>> (CHAR_BIT - bit_shift)))
    let data := modify data (bit / CHAR_BIT) (fun b => b ||| (s <<< bit_shift))
    let bit := bit + CHAR_BIT
    let data := modify data (bit / CHAR_BIT) (fun b => b &&& (0xFF <<< bit_shift))
    let data := modify data (bit / CHAR_BIT) (fun b => b ||| (s >>> (CHAR_BIT - bit_shift)))
    write_chunk data bit src.tail len_bytes

end Bitter

/-- The function `bytesTaken`. -/
def bytesTaken (bits : Nat) : Nat :=
  bits / CHAR_BIT + (if bits % CHAR_BIT != 0 then 1 else 0)

/-! ## The compressor -/

/-- The scratch capacity `max_row_len_bytes`: the ceiling of
`width * ((8 * width + 2 * (width / 4 + got_partial_span)) / (8 * width))`. -/
def max_row_len_bytes (width : Nat) : Nat :=
  let got_partial_span : Nat := if width % 4 != 0 then 1 else 0
  let num := width * (CHAR_BIT * width + 2 * (width / 4 + got_partial_span))
  let den := CHAR_BIT * width
  num / den + (if num % den != 0 then 1 else 0)

/-- The locals of `compress` that live across the chunks of one row. -/
structure RowState where
  row_buffer : List Nat
  row_buffer_bits : Nat
  all_row_white : Bool

/-- The body of the chunk loop of `compress` at column `i`. -/
def compress_chunk (width : Nat) (raw_row : List Nat) (i : Nat) (st : RowState) : RowState :=
  let len_bytes := min width (i + chunk_size_bytes) - i
  let span_white := (List.range len_bytes).all (fun k => raw_row.getD (i + k) 0 == 0xFF)
  let span_black := (List.range len_bytes).all (fun k => raw_row.getD (i + k) 0 == 0)
  let all_row_white := st.all_row_white && span_white
  if span_white then
    ⟨Bitter.clear st.row_buffer st.row_buffer_bits, st.row_buffer_bits + 1, all_row_white⟩
  else if span_black then
    ⟨Bitter.clear (Bitter.set st.row_buffer st.row_buffer_bits) (st.row_buffer_bits + 1),
      st.row_buffer_bits + 2, all_row_white⟩
  else
    let row_buffer :=
      Bitter.set (Bitter.set st.row_buffer st.row_buffer_bits) (st.row_buffer_bits + 1)
    ⟨Bitter.write_chunk row_buffer (st.row_buffer_bits + 2) (raw_row.drop i) len_bytes,
      st.row_buffer_bits + 2 + len_bytes * CHAR_BIT, all_row_white⟩

/-- The chunk loop `for (int i = 0; i < width; i += 4)` of `compress`, from column `i` on;
`fuel` bounds the number of iterations, and `compress_row_fuel` shows that any bound that
covers the remaining chunks gives the same state. -/
def compress_row (width : Nat) (raw_row : List Nat) : Nat → Nat → RowState → RowState
  | 0, _, st => st
  | fuel + 1, i, st =>
    if i < width then
      compress_row width raw_row fuel (i + 4) (compress_chunk width raw_row i st)
    else st

/-- The locals of `compress` that live across rows. -/
structure OutState where
  buffer : List Nat
  buffer_bits : Nat
  row_buffer : List Nat

/-- Apply `f` to the view `Bitter bits{buffer.data() + offset_data}` of the output vector. -/
def on_payload (buffer : List Nat) (f : List Nat → List Nat) : List Nat :=
  buffer.take offset_data ++ f (buffer.drop offset_data)

/-- The body of the row loop of `compress` at row `j`. -/
def compress_iter (width height : Nat) (pixels : List Nat) (j : Nat) (st : OutState) :
    OutState :=
  let buffer := resize st.buffer
    (offset_data + bytesTaken (height + st.buffer_bits) + max_row_len_bytes width)
  let raw_row := pixels.drop (width * j)
  let r := compress_row width raw_row width 0 ⟨st.row_buffer, 0, true⟩
  if r.all_row_white then
    ⟨on_payload buffer (fun bits => Bitter.clear bits j), st.buffer_bits, r.row_buffer⟩
  else
    let row_buffer_bytes := bytesTaken r.row_buffer_bits
    ⟨on_payload buffer (fun bits =>
        Bitter.write_chunk (Bitter.set bits j) (height + st.buffer_bits) r.row_buffer
          row_buffer_bytes),
      st.buffer_bits + r.row_buffer_bits, r.row_buffer⟩

/-- The function `compress`. Negative dimensions, with which the source asks for an
allocation of negative size, run the loops as 0 does. -/
def compress (image_data : RawImageData) : CompressedImage :=
  match image_data.data with
  | none => ⟨0, none⟩
  | some pixels =>
    if image_data.height = 0 ∨ image_data.width = 0 then
      let data := List.replicate offset_height 0
      let data := store data 0 [barch_format_id]
      let data := store data offset_width (int_bytes 0)
      ⟨offset_height, some data⟩
    else
      let width := image_data.width.toNat
      let height := image_data.height.toNat
      let buffer := List.replicate (offset_data + bytesTaken height) 0
      let buffer := store buffer 0 [barch_format_id]
      let buffer := store buffer offset_width (int_bytes image_data.width)
      let buffer := store buffer offset_height (int_bytes image_data.height)
      let row_buffer := List.replicate (max_row_len_bytes width) 0
      let st := (List.range height).foldl
        (fun st j => compress_iter width height pixels j st) ⟨buffer, 0, row_buffer⟩
      let buffer := resize st.buffer (offset_data + bytesTaken (height + st.buffer_bits))
      ⟨buffer.length, some buffer⟩

/-! ## The decompressor -/

/-- The locals of `uncompress` that live across chunks and rows, with the trace of the
byte offsets (counted from `image_data.data`) loaded so far. -/
structure DecState where
  raw_data : List Nat
  payload_pos : Nat
  loads : List Nat

/-- The body of the chunk loop of `uncompress` at column `i` of the row stored at `row_off`;
`bits` is the view `Bitter bits{image_data.data + offset_data}`. An early `return` of the
sentinel is `Except.error`, carrying the trace. -/
def uncompress_chunk (size_bytes width : Nat) (bits : Nat → Nat) (row_off i : Nat)
    (st : DecState) : Except (List Nat) DecState :=
  let len_bytes := min width (i + chunk_size_bytes) - i
  if size_bytes < offset_data + st.payload_pos / CHAR_BIT then .error st.loads
  else
    let bit := Bitter.read bits st.payload_pos
    let loads := st.loads ++ [offset_data + st.payload_pos / CHAR_BIT]
    let payload_pos := st.payload_pos + 1
    if !bit then
      .ok ⟨store st.raw_data (row_off + i) (List.replicate len_bytes 0xFF), payload_pos, loads⟩
    else if size_bytes < offset_data + payload_pos / CHAR_BIT then .error loads
    else
      let bit := Bitter.read bits payload_pos
      let loads := loads ++ [offset_data + payload_pos / CHAR_BIT]
      let payload_pos := payload_pos + 1
      if !bit then
        .ok ⟨store st.raw_data (row_off + i) (List.replicate len_bytes 0), payload_pos, loads⟩
      else if size_bytes < offset_data + (payload_pos + len_bytes - 1) / CHAR_BIT then
        .error loads
      else
        .ok ⟨store st.raw_data (row_off + i) (Bitter.read_chunk bits payload_pos len_bytes),
          payload_pos + len_bytes * CHAR_BIT,
          loads ++ (Bitter.read_chunk_loads payload_pos len_bytes).map (offset_data + ·)⟩

/-- The chunk loop `for (int i = 0; i < width; i += chunk_size_bytes)` of `uncompress`, from
column `i` on; `fuel` bounds the number of iterations, and `uncompress_row_fuel` shows that any
bound that covers the remaining chunks gives the same result. -/
def uncompress_row (size_bytes width : Nat) (bits : Nat → Nat) (row_off : Nat) :
    Nat → Nat → DecState → Except (List Nat) DecState
  | 0, _, st => .ok st
  | fuel + 1, i, st =>
    if i < width then
      match uncompress_chunk size_bytes width bits row_off i st with
      | .error loads => .error loads
      | .ok st => uncompress_row size_bytes width bits row_off fuel (i + chunk_size_bytes) st
    else .ok st

/-- The body of the row loop of `uncompress` at row `j`. -/
def uncompress_iter (size_bytes width : Nat) (bits : Nat → Nat) (j : Nat) (st : DecState) :
    Except (List Nat) DecState :=
  let row_off := width * j
  let loads := st.loads ++ [offset_data + j / CHAR_BIT]
  if !Bitter.read bits j then
    .ok ⟨store st.raw_data row_off (List.replicate width 0xFF), st.payload_pos, loads⟩
  else
    uncompress_row size_bytes width bits row_off width 0 ⟨st.raw_data, st.payload_pos, loads⟩

/-- One turn of the row loop of `uncompress`: after an early `return` no further row runs. -/
def uncompress_step (size_bytes width : Nat) (bits : Nat → Nat)
    (acc : Except (List Nat) DecState) (j : Nat) : Except (List Nat) DecState :=
  match acc with
  | .error loads => .error loads
  | .ok st => uncompress_iter size_bytes width bits j st

/-- The function `uncompress` together with the trace of the byte offsets it loads from
`image_data.data`. A header with a negative width leads the source into an allocation or
`memset` of negative size; the embedding then runs the loops with width 0. -/
def uncompress_run (image_data : CompressedImageData) : RawImage × List Nat :=
  match image_data.data with
  | none => (⟨0, 0, none⟩, [])
  | some data =>
    if data 0 != barch_format_id then (⟨0, 0, none⟩, [0])
    else if image_data.size_bytes < offset_data then (⟨0, 0, none⟩, [0])
    else
      let width := load_int data offset_width
      let height := load_int data offset_height
      let loads := [0, 1, 2, 3, 4, 5, 6, 7, 8]
      if image_data.size_bytes < offset_data + bytesTaken (to_size_t height) then
        (⟨0, 0, none⟩, loads)
      else
        let raw_data := List.replicate (to_size_t width * to_size_t height % 18446744073709551616) 0
        let bits : Nat → Nat := fun k => data (offset_data + k)
        let payload_pos := to_size_t height
        let r := (List.range height.toNat).foldl
          (uncompress_step image_data.size_bytes width.toNat bits)
          (Except.ok (DecState.mk raw_data payload_pos loads))
        match r with
        | .error loads => (⟨0, 0, none⟩, loads)
        | .ok st => (⟨width, height, some st.raw_data⟩, st.loads)

/-- The function `uncompress`. -/
def uncompress (image_data : CompressedImageData) : RawImage :=
  (uncompress_run image_data).1

/-- The byte offsets `uncompress` loads from `image_data.data`, in order. -/
def uncompress_loads (image_data : CompressedImageData) : List Nat :=
  (uncompress_run image_data).2

/-! ## Access traces of the compressor -/

/-- The byte offsets touched by `Bitter::write_chunk`, one for each read-modify-write
`data[...] op= ...`, in order. -/
def Bitter.write_chunk_accesses (bit : Nat) : Nat → List Nat
  | 0 => []
  | len_bytes + 1 =>
    bit / CHAR_BIT :: bit / CHAR_BIT :: (bit + CHAR_BIT) / CHAR_BIT ::
      (bit + CHAR_BIT) / CHAR_BIT :: Bitter.write_chunk_accesses (bit + CHAR_BIT) len_bytes

/-- The byte offsets of the scratch buffer touched through `row_bits` by the body of the chunk
loop of `compress` at column `i`: one for each `set` and `clear`, then those of `write_chunk`. -/
def compress_chunk_accesses (width : Nat) (raw_row : List Nat) (i : Nat) (st : RowState) :
    List Nat :=
  let len_bytes := min width (i + chunk_size_bytes) - i
  let span_white := (List.range len_bytes).all (fun k => raw_row.getD (i + k) 0 == 0xFF)
  let span_black := (List.range len_bytes).all (fun k => raw_row.getD (i + k) 0 == 0)
  if span_white then [st.row_buffer_bits / CHAR_BIT]
  else if span_black then
    [st.row_buffer_bits / CHAR_BIT, (st.row_buffer_bits + 1) / CHAR_BIT]
  else
    [st.row_buffer_bits / CHAR_BIT, (st.row_buffer_bits + 1) / CHAR_BIT] ++
      Bitter.write_chunk_accesses (st.row_buffer_bits + 2) len_bytes

/-- The byte offsets of the scratch buffer touched by the chunk loop of `compress` from
column `i` on. -/
def compress_row_accesses (width : Nat) (raw_row : List Nat) : Nat → Nat → RowState → List Nat
  | 0, _, _ => []
  | fuel + 1, i, st =>
    if i < width then
      compress_chunk_accesses width raw_row i st ++
        compress_row_accesses width raw_row fuel (i + 4) (compress_chunk width raw_row i st)
    else []

/-- The byte offsets of the output vector, counted from `buffer.data()`, touched through
`bits` by the body of the row loop of `compress` at row `j`: the presence bit, then the
`write_chunk` of the row. -/
def compress_iter_accesses (width height : Nat) (pixels : List Nat) (j : Nat) (st : OutState) :
    List Nat :=
  let raw_row := pixels.drop (width * j)
  let r := compress_row width raw_row width 0 ⟨st.row_buffer, 0, true⟩
  if r.all_row_white then [offset_data + j / CHAR_BIT]
  else
    let row_buffer_bytes := bytesTaken r.row_buffer_bits
    (offset_data + j / CHAR_BIT) ::
      (Bitter.write_chunk_accesses (height + st.buffer_bits) row_buffer_bytes).map
        (fun k => offset_data + k)

/-- The size of the output vector after the `resize` at the start of the row loop body. -/
def compress_iter_size (width height : Nat) (st : OutState) : Nat :=
  offset_data + bytesTaken (height + st.buffer_bits) + max_row_len_bytes width

/-- The locals of `compress` when the row loop starts, for positive dimensions. -/
def compress_initial (width height : Nat) : OutState :=
  let buffer := List.replicate (offset_data + bytesTaken height) 0
  let buffer := store buffer 0 [barch_format_id]
  let buffer := store buffer offset_width (int_bytes width)
  let buffer := store buffer offset_height (int_bytes height)
  ⟨buffer, 0, List.replicate (max_row_len_bytes width) 0⟩

/-- The locals of `compress` at the start of iteration `j` of the row loop. -/
def compress_state_before (width height : Nat) (pixels : List Nat) (j : Nat) : OutState :=
  (List.range j).foldl (fun st j => compress_iter width height pixels j st)
    (compress_initial width height)

/-! ## Specification-level definitions -/

/-- Bit `b` of a byte buffer, LSB-first: bit `b % 8` of byte `b / 8`, and 0 outside the buffer. -/
def lbit (l : List Nat) (b : Nat) : Bool := (l.getD (b / 8) 0).testBit (b % 8)

/-- Bit `b` of the memory behind a pointer, LSB-first: bit `b % 8` of byte `b / 8`. -/
def bit_at (data : Nat → Nat) (b : Nat) : Bool := (data (b / 8)).testBit (b % 8)

/-- Every byte of the buffer is below 256. -/
def bytes_ok (l : List Nat) : Prop := ∀ k, l.getD k 0 < 256

/-- One iteration of `write_chunk`: the four read-modify-writes place byte `s` at bit `b`. -/
def write_byte (l : List Nat) (b s : Nat) : List Nat :=
  Bitter.modify
    (Bitter.modify
      (Bitter.modify
        (Bitter.modify l (b / 8) (fun x => x &&& (0xFF >>> (8 - b % 8))))
        (b / 8) (fun x => x ||| (s <<< (b % 8))))
      ((b + 8) / 8) (fun x => x &&& (0xFF <<< (b % 8))))
    ((b + 8) / 8) (fun x => x ||| (s >>> (8 - b % 8)))

/-- The 8 bits of a pixel, least significant first. -/
def byte_bits (v : Nat) : List Bool := (List.range 8).map v.testBit

/-- Chunk `c` of a row: the up to 4 pixels from column `4 * c` on. -/
def span_of (row : List Nat) (c : Nat) : List Nat := (row.drop (4 * c)).take 4

/-- The code of a chunk: 0 when every pixel is 0xFF, 1,0 when every pixel is 0x00, and otherwise
1,1 followed by the 8 bits of each pixel, least significant first. -/
def span_code (span : List Nat) : List Bool :=
  if span.all (fun p => p == 0xFF) then [false]
  else if span.all (fun p => p == 0) then [true, false]
  else true :: true :: span.flatMap byte_bits

/-- The codes of the first `c` chunks of a row, one after the other. -/
def row_code_upto (row : List Nat) : Nat → List Bool
  | 0 => []
  | c + 1 => row_code_upto row c ++ span_code (span_of row c)

/-- The code of a row: the codes of its ceil(length / 4) chunks, one after the other. -/
def row_code (row : List Nat) : List Bool := row_code_upto row ((row.length + 3) / 4)

/-- The bits of a stream from position `off` on spell out `code`. -/
def bits_match (f : Nat → Bool) (off : Nat) (code : List Bool) : Prop :=
  ∀ k, k < code.length → f (off + k) = code.getD k false

/-- Row `j` of a row-major pixel buffer. -/
def row_of (width : Nat) (pixels : List Nat) (j : Nat) : List Nat :=
  (pixels.drop (width * j)).take width

/-- Every pixel of the row is 0xFF. -/
def row_white (row : List Nat) : Bool := row.all (fun p => p == 0xFF)

/-- The codes of the rows below `j` that are not entirely 0xFF, one after the other in row order. -/
def payload_code_upto (width : Nat) (pixels : List Nat) : Nat → List Bool
  | 0 => []
  | j + 1 => payload_code_upto width pixels j ++
      (if row_white (row_of width pixels j) then [] else row_code (row_of width pixels j))

/-- The state of the row loop of `compress` before row `j`: the output is the header followed by
a payload holding the presence bits of the rows below `j` and, from bit `h` on, their codes. -/
def OutInv (w h : Nat) (px hdr : List Nat) (j : Nat) (st : OutState) : Prop :=
  ∃ pl, st.buffer = hdr ++ pl ∧ bytes_ok pl ∧ bytes_ok st.row_buffer ∧
    st.row_buffer.length = max_row_len_bytes w ∧
    st.buffer_bits = (payload_code_upto w px j).length ∧
    (∀ k, k < j → lbit pl k = !row_white (row_of w px k)) ∧
    bits_match (lbit pl) h (payload_code_upto w px j) ∧
    h + st.buffer_bits ≤ 8 * pl.length

/-- The 9 header bytes: the magic tag, the width and the height. -/
def header_of (width height : Int) : List Nat :=
  barch_format_id :: int_bytes width ++ int_bytes height

/-- The state of the row loop of `uncompress` before row `j`: the rows below `j` are decoded and
the cursor stands behind their codes. -/
def DecInv (w h : Nat) (px : List Nat) (j : Nat) (st : DecState) : Prop :=
  st.raw_data.length = w * h ∧ st.raw_data.take (w * j) = px.take (w * j) ∧
    st.payload_pos = h + (payload_code_upto w px j).length

/-- The number of pixels of chunk `c` of a row of `width` pixels: 4, except for a final chunk of
`width % 4` pixels. -/
def chunk_len (width c : Nat) : Nat := if 4 * c + 4 ≤ width then 4 else width % 4

/-- The number of bits a chunk costs: 1 when all 0xFF, 2 when all 0x00, otherwise 2 + 8 * len. -/
def chunk_cost (span : List Nat) : Nat :=
  if span.all (fun p => p == 0xFF) then 1
  else if span.all (fun p => p == 0) then 2
  else 2 + 8 * span.length

/-- The number of bits of a row: the sum of the costs of its ceil(width / 4) chunks. -/
def row_cost (width : Nat) (row : List Nat) : Nat :=
  ((List.range ((width + 3) / 4)).map
    (fun c => chunk_cost ((row.drop (4 * c)).take (chunk_len width c)))).sum

/-- The number of payload bits behind the presence bits: the sum of the costs of the rows that
are not entirely 0xFF. -/
def totalPayloadBits (width height : Nat) (pixels : List Nat) : Nat :=
  ((List.range height).map
    (fun j => if row_white (row_of width pixels j) then 0
      else row_cost width (row_of width pixels j))).sum

/-- The two-bit code 1,0 repeated `n` times. -/
def alt_code : Nat → List Bool
  | 0 => []
  | n + 1 => alt_code n ++ [true, false]

/-- The number spelled by the `k` bits of a stream from position `p` on, least significant
bit first. -/
def bits_value (bits : Nat → Bool) (p : Nat) : Nat → Nat
  | 0 => 0
  | k + 1 => (if bits p then 1 else 0) + 2 * bits_value bits (p + 1) k

/-- The reference decoder on one chunk of `len` pixels with the cursor at `cursor`: code 0 is
`len` bytes 0xFF (cursor + 1), code 1,0 is `len` bytes 0x00 (cursor + 2), code 1,1 is the next
`8 * len` bits taken LSB-first (cursor + 2 + 8 * len). Returns the pixels and the new cursor. -/
def ref_chunk (bits : Nat → Bool) (cursor len : Nat) : List Nat × Nat :=
  if !bits cursor then (List.replicate len 0xFF, cursor + 1)
  else if !bits (cursor + 1) then (List.replicate len 0x00, cursor + 2)
  else ((List.range len).map (fun k => bits_value bits (cursor + 2 + 8 * k) 8),
    cursor + 2 + 8 * len)

/-- The reference decoder on the first `c` chunks of a row of `width` pixels, chunk `k`
having `min 4 (width - 4 * k)` pixels. -/
def ref_row_upto (bits : Nat → Bool) (width cursor : Nat) : Nat → List Nat × Nat
  | 0 => ([], cursor)
  | c + 1 =>
    let r := ref_row_upto bits width cursor c
    let ch := ref_chunk bits r.2 (min 4 (width - 4 * c))
    (r.1 ++ ch.1, ch.2)

/-- The reference decoder on a row with presence bit 1: its ceil(width / 4) chunks. -/
def ref_row (bits : Nat → Bool) (width cursor : Nat) : List Nat × Nat :=
  ref_row_upto bits width cursor ((width + 3) / 4)

/-- The reference decoder on the first `j` rows, the cursor starting at `height`: a row whose
presence bit is 0 is `width` bytes 0xFF and leaves the cursor where it is. -/
def ref_image_upto (bits : Nat → Bool) (width height : Nat) : Nat → List Nat × Nat
  | 0 => ([], height)
  | j + 1 =>
    let r := ref_image_upto bits width height j
    if !bits j then (r.1 ++ List.replicate width 0xFF, r.2)
    else
      let row := ref_row bits width r.2
      (r.1 ++ row.1, row.2)

/-- The reference decoder: the pixels of all `height` rows and the final cursor. -/
def ref_decode (bits : Nat → Bool) (width height : Nat) : List Nat × Nat :=
  ref_image_upto bits width height height

/-- A chunk that is neither all 0xFF nor all 0x00, so that it is coded as a literal. -/
def span_literal (span : List Nat) : Prop :=
  ¬ span.all (fun p => p == 0xFF) = true ∧ ¬ span.all (fun p => p == 0) = true

/-! ## Lemmas -/

theorem and_one_shiftLeft_ne_zero (x s : Nat) : ((x &&& (1 <<< s)) != 0) = x.testBit s := by
  rw [Nat.one_shiftLeft]
  cases h : x.testBit s
  · have h0 : x &&& 2 ^ s = 0 := by
      apply Nat.eq_of_testBit_eq
      intro i
      simp only [Nat.testBit_and, Nat.testBit_two_pow, Nat.zero_testBit]
      by_cases hi : s = i
      · subst hi; simp [h]
      · simp [hi]
    simp [h0]
  · have h0 : x &&& 2 ^ s ≠ 0 := by
      intro h0
      have h1 := congrArg (fun y => Nat.testBit y s) h0
      simp [Nat.testBit_and, h] at h1
    simp [h0]

theorem read_eq_bit_at (data : Nat → Nat) (b : Nat) : Bitter.read data b = bit_at data b := by
  simp only [Bitter.read, bit_at, CHAR_BIT, and_one_shiftLeft_ne_zero]

theorem modify_length (l : List Nat) (i : Nat) (f : Nat → Nat) :
    (Bitter.modify l i f).length = l.length := by
  simp [Bitter.modify]

theorem getD_modify (l : List Nat) (i : Nat) (f : Nat → Nat) (k : Nat) :
    (Bitter.modify l i f).getD k 0 =
      if k = i ∧ i < l.length then f (l.getD i 0) % 256 else l.getD k 0 := by
  simp only [Bitter.modify, List.getD_eq_getElem?_getD, List.getElem?_set]
  by_cases h1 : i = k
  · subst h1
    by_cases h2 : i < l.length
    · simp [h2]
    · simp [h2, List.getElem?_eq_none (Nat.le_of_not_lt h2)]
  · have h3 : ¬ k = i := fun h => h1 h.symm
    simp [h1, h3]

theorem bytes_ok_modify (l : List Nat) (i : Nat) (f : Nat → Nat) (h : bytes_ok l) :
    bytes_ok (Bitter.modify l i f) := by
  intro k
  rw [getD_modify]
  split
  · exact Nat.mod_lt _ (by norm_num)
  · exact h k

/-- A bitwise read-modify-write acts on each bit of the touched byte. -/
theorem lbit_modify (l : List Nat) (i : Nat) (f : Nat → Nat) (g : Nat → Bool → Bool)
    (hf : ∀ x t, t < 8 → (f x).testBit t = g t (x.testBit t)) (b : Nat) :
    lbit (Bitter.modify l i f) b =
      if b / 8 = i ∧ i < l.length then g (b % 8) (lbit l b) else lbit l b := by
  unfold lbit
  rw [getD_modify]
  by_cases h : b / 8 = i ∧ i < l.length
  · rw [if_pos h, if_pos h]
    have h8 : b % 8 < 8 := Nat.mod_lt _ (by norm_num)
    have : (256 : Nat) = 2 ^ 8 := by norm_num
    rw [this, Nat.testBit_mod_two_pow, hf _ _ h8, h.1]
    simp [h8]
  · rw [if_neg h, if_neg h]

theorem lbit_set (l : List Nat) (b b2 : Nat) :
    lbit (Bitter.set l b) b2 = if b2 = b ∧ b / 8 < l.length then true else lbit l b2 := by
  unfold Bitter.set
  rw [lbit_modify l _ _ (fun t x => x || decide (b % 8 = t))]
  · simp only [CHAR_BIT]
    by_cases h1 : b2 = b
    · subst h1; by_cases h2 : b2 / 8 < l.length <;> simp [h2]
    · by_cases h2 : b2 / 8 = b / 8 ∧ b / 8 < l.length
      · have h3 : ¬ b % 8 = b2 % 8 := by omega
        simp [h1, h2, h3]
      · simp [h1, h2]
  · intro x t _
    simp [CHAR_BIT, Nat.testBit_or, Nat.one_shiftLeft, Nat.testBit_two_pow]

theorem lbit_clear (l : List Nat) (b b2 : Nat) :
    lbit (Bitter.clear l b) b2 = if b2 = b ∧ b / 8 < l.length then false else lbit l b2 := by
  unfold Bitter.clear
  rw [lbit_modify l _ _ (fun t x => x && !decide (b % 8 = t))]
  · simp only [CHAR_BIT]
    by_cases h1 : b2 = b
    · subst h1; by_cases h2 : b2 / 8 < l.length <;> simp [h2]
    · by_cases h2 : b2 / 8 = b / 8 ∧ b / 8 < l.length
      · have h3 : ¬ b % 8 = b2 % 8 := by omega
        simp [h1, h2, h3]
      · simp [h1, h2]
  · intro x t ht
    have h32 : (0xFFFFFFFF : Nat) = 2 ^ 32 - 1 := by norm_num
    rw [Nat.testBit_and, Nat.testBit_xor, h32, Nat.testBit_two_pow_sub_one, Nat.one_shiftLeft,
      Nat.testBit_two_pow]
    have : t < 32 := by omega
    simp [this, CHAR_BIT]

theorem testBit_ff (t : Nat) : (255 : Nat).testBit t = decide (t < 8) := by
  have h : (255 : Nat) = 2 ^ 8 - 1 := by norm_num
  rw [h, Nat.testBit_two_pow_sub_one]

theorem testBit_of_lt_256 (s t : Nat) (hs : s < 256) (ht : 8 ≤ t) : s.testBit t = false := by
  apply Nat.testBit_lt_two_pow
  calc s < 2 ^ 8 := by norm_num; exact hs
    _ ≤ 2 ^ t := Nat.pow_le_pow_right (by norm_num) ht

theorem write_chunk_succ (l : List Nat) (b : Nat) (src : List Nat) (n : Nat) :
    Bitter.write_chunk l b src (n + 1) =
      Bitter.write_chunk (write_byte l b (src.headD 0)) (b + 8) src.tail n := by
  simp [Bitter.write_chunk, write_byte, CHAR_BIT]

theorem write_byte_length (l : List Nat) (b s : Nat) : (write_byte l b s).length = l.length := by
  simp [write_byte, modify_length]

theorem bytes_ok_write_byte (l : List Nat) (b s : Nat) (h : bytes_ok l) :
    bytes_ok (write_byte l b s) := by
  unfold write_byte
  exact bytes_ok_modify _ _ _ (bytes_ok_modify _ _ _ (bytes_ok_modify _ _ _
    (bytes_ok_modify _ _ _ h)))

theorem lbit_write_byte (l : List Nat) (b s : Nat) (hs : s < 256) (hcap : b + 8 ≤ 8 * l.length)
    (b2 : Nat) :
    lbit (write_byte l b s) b2 = if b ≤ b2 ∧ b2 < b + 8 then s.testBit (b2 - b) else lbit l b2 := by
  unfold write_byte
  rw [lbit_modify _ _ _ (fun t x => x || s.testBit (8 - b % 8 + t)),
    lbit_modify _ _ _ (fun t x => x && decide (b % 8 ≤ t)),
    lbit_modify _ _ _ (fun t x => x || (decide (b % 8 ≤ t) && s.testBit (t - b % 8))),
    lbit_modify _ _ _ (fun t x => x && decide (t < b % 8))]
  · simp only [modify_length]
    have hb8 : b / 8 < l.length := by omega
    by_cases hA : b2 / 8 = b / 8
    · have h1 : ¬ (b2 / 8 = (b + 8) / 8) := by omega
      simp only [h1, hA, hb8, false_and, and_self, if_false, if_true]
      by_cases hge : b ≤ b2
      · have h2 : b % 8 ≤ b2 % 8 := by omega
        have h3 : ¬ b2 % 8 < b % 8 := by omega
        have h4 : b2 < b + 8 := by omega
        have h5 : b2 % 8 - b % 8 = b2 - b := by omega
        simp [h2, h3, hge, h4, h5]
      · have h2 : ¬ b % 8 ≤ b2 % 8 := by omega
        have h3 : b2 % 8 < b % 8 := by omega
        simp [h2, h3, hge]
    · by_cases hB : b2 / 8 = (b + 8) / 8
      · by_cases hlen : (b + 8) / 8 < l.length
        · simp only [hB, hlen, and_self, if_true]
          have h0 : ¬ ((b + 8) / 8 = b / 8) := by omega
          simp only [h0, false_and, if_false]
          by_cases hlt : b2 < b + 8
          · have h2 : ¬ b % 8 ≤ b2 % 8 := by omega
            have h3 : b ≤ b2 := by omega
            have h5 : 8 - b % 8 + b2 % 8 = b2 - b := by omega
            simp [h2, h3, hlt, h5]
          · have h2 : b % 8 ≤ b2 % 8 := by omega
            have h6 : s.testBit (8 - b % 8 + b2 % 8) = false :=
              testBit_of_lt_256 _ _ hs (by omega)
            simp [h2, hlt, h6]
        · have h0 : ¬ ((b + 8) / 8 = b / 8) := by omega
          have hlt : ¬ b2 < b + 8 := by omega
          have hlen2 : ¬ b / 8 + 1 < l.length := by omega
          simp [hB, hlen, h0, hlt, hlen2]
      · have hr : ¬ (b ≤ b2 ∧ b2 < b + 8) := by omega
        have hB2 : ¬ b2 / 8 = b / 8 + 1 := by omega
        simp [hA, hB, hr, hB2]
  · intro x t ht
    rw [Nat.testBit_and, Nat.testBit_shiftRight, testBit_ff]
    congr 1
    apply decide_eq_decide.mpr
    omega
  · intro x t ht
    rw [Nat.testBit_or, Nat.testBit_shiftLeft]
  · intro x t ht
    rw [Nat.testBit_and, Nat.testBit_shiftLeft, testBit_ff]
    have : t - b % 8 < 8 := by omega
    simp [this]
  · intro x t ht
    rw [Nat.testBit_or, Nat.testBit_shiftRight]

theorem write_chunk_length (n : Nat) : ∀ (l : List Nat) (b : Nat) (src : List Nat),
    (Bitter.write_chunk l b src n).length = l.length := by
  induction n with
  | zero => intro l b src; rfl
  | succ n ih =>
    intro l b src
    rw [write_chunk_succ, ih, write_byte_length]

theorem bytes_ok_write_chunk (n : Nat) : ∀ (l : List Nat) (b : Nat) (src : List Nat),
    bytes_ok l → bytes_ok (Bitter.write_chunk l b src n) := by
  induction n with
  | zero => intro l b src h; exact h
  | succ n ih =>
    intro l b src h
    rw [write_chunk_succ]
    exact ih _ _ _ (bytes_ok_write_byte _ _ _ h)

theorem getD_tail (src : List Nat) (k : Nat) : src.tail.getD k 0 = src.getD (k + 1) 0 := by
  cases src <;> simp

theorem headD_eq_getD (src : List Nat) : src.headD 0 = src.getD 0 0 := by
  cases src <;> simp

theorem lbit_write_chunk (n : Nat) : ∀ (l : List Nat) (b : Nat) (src : List Nat),
    b + 8 * n ≤ 8 * l.length → (∀ k, k < n → src.getD k 0 < 256) → ∀ b2,
    lbit (Bitter.write_chunk l b src n) b2 =
      if b ≤ b2 ∧ b2 < b + 8 * n then lbit src (b2 - b) else lbit l b2 := by
  induction n with
  | zero =>
    intro l b src _ _ b2
    have h0 : ¬ (b ≤ b2 ∧ b2 < b + 8 * 0) := by omega
    rw [if_neg h0]
    rfl
  | succ n ih =>
    intro l b src hcap hsrc b2
    rw [write_chunk_succ, ih _ _ _ (by rw [write_byte_length]; omega)
      (fun k hk => by rw [getD_tail]; exact hsrc _ (by omega)),
      lbit_write_byte _ _ _ (by rw [headD_eq_getD]; exact hsrc 0 (by omega)) (by omega)]
    by_cases h1 : b + 8 ≤ b2 ∧ b2 < b + 8 + 8 * n
    · have h2 : b ≤ b2 ∧ b2 < b + 8 * (n + 1) := by omega
      rw [if_pos h1, if_pos h2]
      unfold lbit
      rw [getD_tail]
      have e1 : (b2 - (b + 8)) / 8 + 1 = (b2 - b) / 8 := by omega
      have e2 : (b2 - (b + 8)) % 8 = (b2 - b) % 8 := by omega
      rw [e1, e2]
    · rw [if_neg h1]
      by_cases h3 : b ≤ b2 ∧ b2 < b + 8
      · have h2 : b ≤ b2 ∧ b2 < b + 8 * (n + 1) := by omega
        rw [if_pos h3, if_pos h2]
        unfold lbit
        have e1 : (b2 - b) / 8 = 0 := by omega
        have e2 : (b2 - b) % 8 = b2 - b := by omega
        rw [e1, e2, headD_eq_getD]
      · have h2 : ¬ (b ≤ b2 ∧ b2 < b + 8 * (n + 1)) := by omega
        rw [if_neg h3, if_neg h2]

theorem bits_match_nil (f : Nat → Bool) (off : Nat) : bits_match f off [] := by
  intro k hk; simp at hk

theorem bits_match_append (f : Nat → Bool) (off : Nat) (a b : List Bool) :
    bits_match f off (a ++ b) ↔ bits_match f off a ∧ bits_match f (off + a.length) b := by
  constructor
  · intro h
    constructor
    · intro k hk
      rw [h k (by simp; omega), List.getD_append _ _ _ _ hk]
    · intro k hk
      rw [Nat.add_assoc, h (a.length + k) (by simp; omega),
        List.getD_append_right _ _ _ _ (by omega)]
      simp
  · rintro ⟨ha, hb⟩ k hk
    by_cases h1 : k < a.length
    · rw [ha k h1, List.getD_append _ _ _ _ h1]
    · have h2 : k - a.length < b.length := by simp at hk; omega
      have h3 := hb (k - a.length) h2
      rw [List.getD_append_right _ _ _ _ (by omega), ← h3]
      congr 1; omega

theorem byte_bits_length (v : Nat) : (byte_bits v).length = 8 := by simp [byte_bits]

theorem byte_bits_getD (v p : Nat) (hp : p < 8) : (byte_bits v).getD p false = v.testBit p := by
  unfold byte_bits
  rw [List.getD_eq_getElem _ _ (by simpa using hp)]
  simp

theorem flatMap_byte_bits_length (span : List Nat) :
    (span.flatMap byte_bits).length = 8 * span.length := by
  induction span with
  | nil => rfl
  | cons a t ih => simp [List.flatMap_cons, ih, byte_bits_length]; omega

theorem flatMap_byte_bits_getD (span : List Nat) : ∀ p, p < 8 * span.length →
    (span.flatMap byte_bits).getD p false = (span.getD (p / 8) 0).testBit (p % 8) := by
  induction span with
  | nil => intro p hp; simp at hp
  | cons a t ih =>
    intro p hp
    rw [List.flatMap_cons]
    by_cases h : p < 8
    · rw [List.getD_append _ _ _ _ (by rw [byte_bits_length]; exact h), byte_bits_getD _ _ h]
      have e1 : p / 8 = 0 := by omega
      have e2 : p % 8 = p := by omega
      rw [e1, e2]; simp
    · rw [List.getD_append_right _ _ _ _ (by rw [byte_bits_length]; omega), byte_bits_length,
        ih (p - 8) (by simp at hp; omega)]
      have e1 : p / 8 = (p - 8) / 8 + 1 := by omega
      have e2 : p % 8 = (p - 8) % 8 := by omega
      rw [e1, e2]; simp

theorem span_code_length_le (span : List Nat) : (span_code span).length ≤ 2 + 8 * span.length := by
  unfold span_code
  split
  · simp only [List.length_singleton]; omega
  · split
    · simp only [List.length_cons, List.length_nil]; omega
    · simp only [List.length_cons, flatMap_byte_bits_length]; omega

theorem span_code_pos (span : List Nat) : 0 < (span_code span).length := by
  unfold span_code
  split
  · simp
  · split <;> simp

theorem getD_drop_nat (l : List Nat) (i k : Nat) : (l.drop i).getD k 0 = l.getD (i + k) 0 := by
  simp [List.getD_eq_getElem?_getD, List.getElem?_drop]

theorem span_of_take_eq (w : Nat) (raw_row : List Nat) (c : Nat) (hlen : w ≤ raw_row.length) :
    span_of (raw_row.take w) c =
      (List.range (min w (4 * c + 4) - 4 * c)).map (fun k => raw_row.getD (4 * c + k) 0) := by
  unfold span_of
  apply List.ext_getElem
  · simp; omega
  · intro n h1 h2
    simp at h1 h2
    simp only [List.getElem_take, List.getElem_drop, List.getElem_map, List.getElem_range]
    rw [List.getD_eq_getElem _ _ (by omega)]

theorem span_of_length (w : Nat) (raw_row : List Nat) (c : Nat) (hlen : w ≤ raw_row.length) :
    (span_of (raw_row.take w) c).length = min w (4 * c + 4) - 4 * c := by
  rw [span_of_take_eq w raw_row c hlen]; simp

theorem set_length (l : List Nat) (b : Nat) : (Bitter.set l b).length = l.length := by
  simp [Bitter.set, modify_length]

theorem clear_length (l : List Nat) (b : Nat) : (Bitter.clear l b).length = l.length := by
  simp [Bitter.clear, modify_length]

theorem bytes_ok_set (l : List Nat) (b : Nat) (h : bytes_ok l) : bytes_ok (Bitter.set l b) :=
  bytes_ok_modify _ _ _ h

theorem bytes_ok_clear (l : List Nat) (b : Nat) (h : bytes_ok l) : bytes_ok (Bitter.clear l b) :=
  bytes_ok_modify _ _ _ h

theorem span_getD (w : Nat) (raw_row : List Nat) (c q : Nat) (hlen : w ≤ raw_row.length)
    (hq : q < min w (4 * c + 4) - 4 * c) :
    (span_of (raw_row.take w) c).getD q 0 = raw_row.getD (4 * c + q) 0 := by
  rw [span_of_take_eq w raw_row c hlen, List.getD_eq_getElem _ _ (by simpa using hq)]
  simp

theorem span_all_eq (w : Nat) (raw_row : List Nat) (c v : Nat) (hlen : w ≤ raw_row.length) :
    (List.range (min w (4 * c + 4) - 4 * c)).all (fun k => raw_row.getD (4 * c + k) 0 == v) =
      (span_of (raw_row.take w) c).all (fun p => p == v) := by
  rw [span_of_take_eq w raw_row c hlen, List.all_map]
  rfl

theorem compress_chunk_spec (w : Nat) (raw_row : List Nat) (c : Nat) (st : RowState)
    (code : List Bool)
    (hlen : w ≤ raw_row.length) (hpx : ∀ k, raw_row.getD k 0 < 256)
    (hcap : st.row_buffer_bits + 2 + 8 * (min w (4 * c + 4) - 4 * c) ≤ 8 * st.row_buffer.length)
    (hok : bytes_ok st.row_buffer)
    (hm : bits_match (lbit st.row_buffer) 0 code) (hbits : st.row_buffer_bits = code.length) :
    (compress_chunk w raw_row (4 * c) st).row_buffer.length = st.row_buffer.length ∧
    bytes_ok (compress_chunk w raw_row (4 * c) st).row_buffer ∧
    (compress_chunk w raw_row (4 * c) st).row_buffer_bits =
      (code ++ span_code (span_of (raw_row.take w) c)).length ∧
    bits_match (lbit (compress_chunk w raw_row (4 * c) st).row_buffer) 0
      (code ++ span_code (span_of (raw_row.take w) c)) ∧
    (compress_chunk w raw_row (4 * c) st).all_row_white =
      (st.all_row_white && (span_of (raw_row.take w) c).all (fun p => p == 0xFF)) := by
  have hW := span_all_eq w raw_row c 0xFF hlen
  have hB := span_all_eq w raw_row c 0 hlen
  simp only [compress_chunk, chunk_size_bytes, CHAR_BIT, hW, hB]
  by_cases hw : (span_of (raw_row.take w) c).all (fun p => p == 0xFF) = true
  · simp only [hw, if_true, span_code]
    refine ⟨clear_length _ _, bytes_ok_clear _ _ hok, by simp [hbits], ?_, by simp⟩
    rw [bits_match_append]
    constructor
    · intro k hk
      rw [lbit_clear, if_neg (by omega)]
      exact hm k hk
    · intro k hk
      simp at hk
      subst hk
      rw [lbit_clear, if_pos ⟨by omega, by omega⟩]
      simp
  · by_cases hb : (span_of (raw_row.take w) c).all (fun p => p == 0) = true
    · simp only [hw, hb, if_true, span_code, Bool.false_eq_true, if_false]
      refine ⟨by rw [clear_length, set_length], bytes_ok_clear _ _ (bytes_ok_set _ _ hok),
        by simp [hbits], ?_, by simp⟩
      rw [bits_match_append]
      constructor
      · intro k hk
        rw [lbit_clear, if_neg (by omega), lbit_set, if_neg (by omega)]
        exact hm k hk
      · intro k hk
        simp at hk
        have hk2 : k = 0 ∨ k = 1 := by omega
        rcases hk2 with rfl | rfl
        · rw [lbit_clear, if_neg (by omega), lbit_set, if_pos ⟨by omega, by omega⟩]
          simp
        · rw [lbit_clear, if_pos ⟨by omega, by rw [set_length]; omega⟩]
          simp
    · simp only [hw, hb, span_code, Bool.false_eq_true, if_false]
      have hcap2 : st.row_buffer_bits + 2 + 8 * (min w (4 * c + 4) - 4 * c) ≤
          8 * (Bitter.set (Bitter.set st.row_buffer st.row_buffer_bits)
            (st.row_buffer_bits + 1)).length := by
        rw [set_length, set_length]; exact hcap
      have hsrc : ∀ k, k < min w (4 * c + 4) - 4 * c → (raw_row.drop (4 * c)).getD k 0 < 256 := by
        intro k _
        rw [getD_drop_nat]
        exact hpx _
      refine ⟨by rw [write_chunk_length, set_length, set_length],
        bytes_ok_write_chunk _ _ _ _ (bytes_ok_set _ _ (bytes_ok_set _ _ hok)),
        by rw [List.length_append]
           simp only [List.length_cons, flatMap_byte_bits_length,
             span_of_length w raw_row c hlen, hbits]
           omega, ?_,
        by simp⟩
      rw [bits_match_append]
      constructor
      · intro k hk
        rw [lbit_write_chunk _ _ _ _ hcap2 hsrc, if_neg (by omega), lbit_set, if_neg (by omega),
          lbit_set, if_neg (by omega)]
        exact hm k hk
      · intro k hk
        simp only [List.length_cons, flatMap_byte_bits_length,
          span_of_length w raw_row c hlen] at hk
        rw [lbit_write_chunk _ _ _ _ hcap2 hsrc]
        by_cases h0 : k = 0
        · subst h0
          rw [if_neg (by omega), lbit_set, if_neg (by omega), lbit_set,
            if_pos ⟨by omega, by omega⟩]
          simp
        · by_cases h1 : k = 1
          · subst h1
            rw [if_neg (by omega), lbit_set, if_pos ⟨by omega, by rw [set_length]; omega⟩]
            simp
          · rw [if_pos ⟨by omega, by omega⟩]
            obtain ⟨q, rfl⟩ : ∃ q, k = q + 2 := ⟨k - 2, by omega⟩
            have e : 0 + code.length + (q + 2) - (st.row_buffer_bits + 2) = q := by omega
            rw [e]
            simp only [List.getD_cons_succ]
            rw [flatMap_byte_bits_getD _ _
              (by rw [span_of_length w raw_row c hlen]; omega),
              span_getD w raw_row c _ hlen (by omega)]
            unfold lbit
            rw [getD_drop_nat]

theorem compress_row_induct (w : Nat) (raw_row : List Nat) (P : Nat → RowState → Prop)
    (hstep : ∀ c st, 4 * c < w → P c st → P (c + 1) (compress_chunk w raw_row (4 * c) st)) :
    ∀ fuel c st, (w + 3) / 4 ≤ c + fuel → c ≤ (w + 3) / 4 → P c st →
      P ((w + 3) / 4) (compress_row w raw_row fuel (4 * c) st) := by
  intro fuel
  induction fuel with
  | zero =>
    intro c st h1 h2 hP
    have : c = (w + 3) / 4 := by omega
    subst this
    exact hP
  | succ fuel ih =>
    intro c st h1 h2 hP
    unfold compress_row
    by_cases h : 4 * c < w
    · rw [if_pos h]
      have := ih (c + 1) (compress_chunk w raw_row (4 * c) st) (by omega) (by omega)
        (hstep c st h hP)
      rw [Nat.mul_add, Nat.mul_one] at this
      exact this
    · rw [if_neg h]
      have : c = (w + 3) / 4 := by omega
      subst this
      exact hP

theorem row_code_upto_succ (row : List Nat) (c : Nat) :
    row_code_upto row (c + 1) = row_code_upto row c ++ span_code (span_of row c) := rfl

theorem compress_row_spec (w : Nat) (raw_row rb : List Nat)
    (hlen : w ≤ raw_row.length) (hpx : ∀ k, raw_row.getD k 0 < 256)
    (hcap : 8 * w + 2 * ((w + 3) / 4) ≤ 8 * rb.length) (hok : bytes_ok rb) :
    (compress_row w raw_row w 0 ⟨rb, 0, true⟩).row_buffer.length = rb.length ∧
    bytes_ok (compress_row w raw_row w 0 ⟨rb, 0, true⟩).row_buffer ∧
    (compress_row w raw_row w 0 ⟨rb, 0, true⟩).row_buffer_bits =
      (row_code (raw_row.take w)).length ∧
    bits_match (lbit (compress_row w raw_row w 0 ⟨rb, 0, true⟩).row_buffer) 0
      (row_code (raw_row.take w)) ∧
    (compress_row w raw_row w 0 ⟨rb, 0, true⟩).all_row_white =
      (raw_row.take w).all (fun p => p == 0xFF) ∧
    (row_code (raw_row.take w)).length ≤ 8 * w + 2 * ((w + 3) / 4) := by
  have hrow : (raw_row.take w).length = w := by simp; omega
  have key := compress_row_induct w raw_row
    (fun c st => st.row_buffer.length = rb.length ∧ bytes_ok st.row_buffer ∧
      st.row_buffer_bits = (row_code_upto (raw_row.take w) c).length ∧
      bits_match (lbit st.row_buffer) 0 (row_code_upto (raw_row.take w) c) ∧
      st.all_row_white = ((raw_row.take w).take (4 * c)).all (fun p => p == 0xFF) ∧
      (row_code_upto (raw_row.take w) c).length ≤ 8 * min (4 * c) w + 2 * c)
    (by
      intro c st hc ⟨h1, h2, h3, h4, h5, h6⟩
      have hsl := span_of_length w raw_row c hlen
      have hscl := span_code_length_le (span_of (raw_row.take w) c)
      have hspec := compress_chunk_spec w raw_row c st (row_code_upto (raw_row.take w) c) hlen hpx
        (by rw [h1, h3]; omega) h2 h4 h3
      obtain ⟨g1, g2, g3, g4, g5⟩ := hspec
      refine ⟨by rw [g1, h1], g2, by rw [row_code_upto_succ]; exact g3,
        by rw [row_code_upto_succ]; exact g4, ?_, ?_⟩
      · rw [g5, h5, Nat.mul_add, Nat.mul_one, List.take_add, List.all_append]
        rfl
      · rw [row_code_upto_succ, List.length_append]
        omega)
    w 0 ⟨rb, 0, true⟩ (by omega) (by omega)
    ⟨rfl, hok, by simp [row_code_upto], bits_match_nil _ _, by simp, by simp [row_code_upto]⟩
  simp only [Nat.mul_zero] at key
  obtain ⟨g1, g2, g3, g4, g5, g6⟩ := key
  have htake : (raw_row.take w).take (4 * ((w + 3) / 4)) = raw_row.take w :=
    List.take_of_length_le (by rw [hrow]; omega)
  unfold row_code
  rw [hrow]
  rw [htake] at g5
  exact ⟨g1, g2, g3, g4, g5, by omega⟩

theorem bytesTaken_eq (x : Nat) : bytesTaken x = (x + 7) / 8 := by
  unfold bytesTaken CHAR_BIT
  by_cases h : x % 8 = 0
  · simp [h]; omega
  · simp [h]; omega

theorem max_row_len_bytes_eq (w : Nat) (hw : 0 < w) :
    max_row_len_bytes w = bytesTaken (8 * w + 2 * ((w + 3) / 4)) := by
  have e : w / 4 + (if w % 4 != 0 then 1 else 0) = (w + 3) / 4 := by
    by_cases h : w % 4 = 0
    · simp [h]; omega
    · simp [h]; omega
  unfold max_row_len_bytes bytesTaken
  simp only [CHAR_BIT, e]
  rw [Nat.mul_comm 8 w, Nat.mul_div_mul_left _ _ hw, Nat.mul_mod_mul_left]
  have h2 : (w * ((w * 8 + 2 * ((w + 3) / 4)) % 8) != 0) =
      ((w * 8 + 2 * ((w + 3) / 4)) % 8 != 0) := by
    by_cases h : (w * 8 + 2 * ((w + 3) / 4)) % 8 = 0
    · rw [h]; rfl
    · have h3 : w * ((w * 8 + 2 * ((w + 3) / 4)) % 8) ≠ 0 :=
        Nat.mul_ne_zero (by omega) h
      rw [bne_iff_ne.mpr h3, bne_iff_ne.mpr h]
  rw [h2]

theorem foldl_range_induct {σ : Type} (f : σ → Nat → σ) (P : Nat → σ → Prop) (init : σ)
    (h0 : P 0 init) :
    ∀ n, (∀ j s, j < n → P j s → P (j + 1) (f s j)) → P n ((List.range n).foldl f init) := by
  intro n
  induction n with
  | zero => intro _; simpa using h0
  | succ n ih =>
    intro hstep
    rw [List.range_succ, List.foldl_append]
    simp only [List.foldl_cons, List.foldl_nil]
    exact hstep n _ (by omega) (ih (fun j s hj hP => hstep j s (by omega) hP))

theorem resize_length (l : List Nat) (n : Nat) : (resize l n).length = n := by
  simp [resize]; omega

theorem getD_resize (l : List Nat) (n k : Nat) (hk : k < n) :
    (resize l n).getD k 0 = l.getD k 0 := by
  unfold resize
  by_cases h : k < l.length
  · rw [List.getD_append _ _ _ _ (by simp; omega)]
    simp [List.getD_eq_getElem?_getD, List.getElem?_take, hk]
  · rw [List.getD_append_right _ _ _ _ (by simp; omega)]
    rw [List.getD_eq_getElem?_getD, List.getD_eq_getElem?_getD,
      List.getElem?_eq_none (Nat.le_of_not_lt h)]
    simp only [List.getElem?_replicate]
    split <;> rfl

theorem bytes_ok_resize (l : List Nat) (n : Nat) (h : bytes_ok l) : bytes_ok (resize l n) := by
  intro k
  by_cases hk : k < n
  · rw [getD_resize _ _ _ hk]; exact h k
  · rw [List.getD_eq_getElem?_getD, List.getElem?_eq_none (by rw [resize_length]; omega)]
    simp

theorem lbit_resize (l : List Nat) (n b : Nat) (hb : b < 8 * n) :
    lbit (resize l n) b = lbit l b := by
  unfold lbit
  rw [getD_resize _ _ _ (by omega)]

theorem resize_append_hdr (hdr pl : List Nat) (m : Nat) (h : hdr.length = 9) :
    resize (hdr ++ pl) (offset_data + m) = hdr ++ resize pl m := by
  unfold resize offset_data
  have e : 1 + 4 * 2 + m = hdr.length + m := by omega
  rw [e, List.take_append, List.length_append, List.append_assoc, Nat.add_sub_add_left]

theorem on_payload_append (hdr pl : List Nat) (f : List Nat → List Nat) (h : hdr.length = 9) :
    on_payload (hdr ++ pl) f = hdr ++ f pl := by
  unfold on_payload offset_data
  have e : 1 + 4 * 2 = hdr.length := by omega
  rw [e, List.take_left, List.drop_left]

theorem row_len_ok (w h : Nat) (px : List Nat) (j : Nat) (hj : j < h) (hlen : px.length = w * h) :
    w ≤ (px.drop (w * j)).length := by
  rw [List.length_drop, hlen]
  have : w * (j + 1) ≤ w * h := Nat.mul_le_mul_left w (by omega)
  rw [Nat.mul_add, Nat.mul_one] at this
  omega

theorem compress_iter_spec (w h : Nat) (px hdr : List Nat) (j : Nat) (st : OutState)
    (hw : 0 < w) (hj : j < h) (hlen : px.length = w * h) (hpx : bytes_ok px)
    (hhdr : hdr.length = 9) (hinv : OutInv w h px hdr j st) :
    OutInv w h px hdr (j + 1) (compress_iter w h px j st) := by
  obtain ⟨pl, hbuf, hokpl, hokrb, hrbl, hbb, hpres, hcode, hcapp⟩ := hinv
  have hmrl := max_row_len_bytes_eq w hw
  have hrow := compress_row_spec w (px.drop (w * j)) st.row_buffer
    (row_len_ok w h px j hj hlen) (fun k => by rw [getD_drop_nat]; exact hpx _)
    (by rw [hrbl, hmrl, bytesTaken_eq]; omega) hokrb
  obtain ⟨r1, r2, r3, r4, r5, r6⟩ := hrow
  have hrowof : (px.drop (w * j)).take w = row_of w px j := rfl
  rw [hrowof] at r3 r4 r5 r6
  have hbt := bytesTaken_eq (h + st.buffer_bits)
  have hbt2 := bytesTaken_eq (8 * w + 2 * ((w + 3) / 4))
  unfold compress_iter
  simp only [hbuf, resize_append_hdr _ _ _ hhdr, Nat.add_assoc, on_payload_append _ _ _ hhdr]
  have hl1 : (resize pl (bytesTaken (h + st.buffer_bits) + max_row_len_bytes w)).length =
      bytesTaken (h + st.buffer_bits) + max_row_len_bytes w := resize_length _ _
  have hb1 : ∀ b, b < h + st.buffer_bits →
      lbit (resize pl (bytesTaken (h + st.buffer_bits) + max_row_len_bytes w)) b = lbit pl b := by
    intro b hb
    exact lbit_resize _ _ _ (by omega)
  by_cases hwhite : (compress_row w (px.drop (w * j)) w 0 ⟨st.row_buffer, 0, true⟩).all_row_white
      = true
  · rw [if_pos hwhite]
    have hrw : row_white (row_of w px j) = true := by rw [row_white, ← r5]; exact hwhite
    refine ⟨_, rfl, bytes_ok_clear _ _ (bytes_ok_resize _ _ hokpl), r2, by rw [r1, hrbl], ?_, ?_,
      ?_, ?_⟩
    · simp only [payload_code_upto, hrw, if_true, List.append_nil]; exact hbb
    · intro k hk
      rw [lbit_clear]
      by_cases hkj : k = j
      · subst hkj
        rw [if_pos ⟨rfl, by rw [hl1]; omega⟩, hrw]; rfl
      · rw [if_neg (by omega), hb1 k (by omega)]
        exact hpres k (by omega)
    · simp only [payload_code_upto, hrw, if_true, List.append_nil]
      intro k hk
      rw [lbit_clear, if_neg (by omega), hb1 _ (by omega)]
      exact hcode k hk
    · dsimp only
      rw [clear_length, hl1]; omega
  · rw [if_neg hwhite]
    have hrw : row_white (row_of w px j) = false := by
      rw [row_white, ← r5]; simpa using hwhite
    have hcap2 : h + st.buffer_bits + 8 * bytesTaken (compress_row w (px.drop (w * j)) w 0
        ⟨st.row_buffer, 0, true⟩).row_buffer_bits ≤ 8 * (Bitter.set (resize pl
          (bytesTaken (h + st.buffer_bits) + max_row_len_bytes w)) j).length := by
      rw [set_length, hl1, r3, hmrl, bytesTaken_eq, bytesTaken_eq, bytesTaken_eq]
      omega
    have hsrc : ∀ k, k < bytesTaken (compress_row w (px.drop (w * j)) w 0
        ⟨st.row_buffer, 0, true⟩).row_buffer_bits →
        (compress_row w (px.drop (w * j)) w 0 ⟨st.row_buffer, 0, true⟩).row_buffer.getD k 0
          < 256 := fun k _ => r2 k
    have hbtr := bytesTaken_eq (compress_row w (px.drop (w * j)) w 0
        ⟨st.row_buffer, 0, true⟩).row_buffer_bits
    refine ⟨_, rfl, bytes_ok_write_chunk _ _ _ _ (bytes_ok_set _ _ (bytes_ok_resize _ _ hokpl)),
      r2, by rw [r1, hrbl], ?_, ?_, ?_, ?_⟩
    · simp only [payload_code_upto, hrw, Bool.false_eq_true, if_false, List.length_append]
      rw [hbb, r3]
    · intro k hk
      rw [lbit_write_chunk _ _ _ _ hcap2 hsrc, if_neg (by omega), lbit_set]
      by_cases hkj : k = j
      · subst hkj
        rw [if_pos ⟨rfl, by rw [hl1]; omega⟩, hrw]; rfl
      · rw [if_neg (by omega), hb1 k (by omega)]
        exact hpres k (by omega)
    · simp only [payload_code_upto, hrw, Bool.false_eq_true, if_false]
      rw [bits_match_append]
      constructor
      · intro k hk
        rw [lbit_write_chunk _ _ _ _ hcap2 hsrc, if_neg (by omega), lbit_set, if_neg (by omega),
          hb1 _ (by omega)]
        exact hcode k hk
      · intro k hk
        rw [lbit_write_chunk _ _ _ _ hcap2 hsrc, if_pos ⟨by omega, by omega⟩]
        have e : h + (payload_code_upto w px j).length + k - (h + st.buffer_bits) = 0 + k := by
          omega
        rw [e]
        exact r4 k hk
    · dsimp only
      rw [write_chunk_length, set_length, hl1, r3, hmrl]
      omega

theorem header_of_length (width height : Int) : (header_of width height).length = 9 := by
  simp [header_of, int_bytes]

theorem initial_buffer_eq (width height : Int) (m : Nat) :
    store (store (store (List.replicate (offset_data + m) 0) 0 [barch_format_id]) offset_width
      (int_bytes width)) offset_height (int_bytes height) =
      header_of width height ++ List.replicate m 0 := by
  have e : List.replicate (offset_data + m) 0 =
      [0, 0, 0, 0, 0, 0, 0, 0, 0] ++ List.replicate m 0 := by
    rw [List.replicate_add]; rfl
  rw [e]
  simp [store, header_of, int_bytes, offset_width, offset_height]

theorem bytes_ok_replicate_zero (n : Nat) : bytes_ok (List.replicate n 0) := by
  intro k
  rw [List.getD_eq_getElem?_getD, List.getElem?_replicate]
  split <;> simp

theorem lbit_replicate_zero (n b : Nat) : lbit (List.replicate n 0) b = false := by
  unfold lbit
  rw [List.getD_eq_getElem?_getD, List.getElem?_replicate]
  split <;> simp

theorem compress_spec (w h : Nat) (px : List Nat) (hw : 0 < w) (hh : 0 < h)
    (hlen : px.length = w * h) (hpx : bytes_ok px) :
    ∃ pl, compress ⟨(w : Int), (h : Int), some px⟩ =
        ⟨offset_data + bytesTaken (h + (payload_code_upto w px h).length),
          some (header_of w h ++ pl)⟩ ∧
      pl.length = bytesTaken (h + (payload_code_upto w px h).length) ∧
      bytes_ok pl ∧
      (∀ k, k < h → lbit pl k = !row_white (row_of w px k)) ∧
      bits_match (lbit pl) h (payload_code_upto w px h) := by
  have hhdr := header_of_length w h
  have key := foldl_range_induct (fun st j => compress_iter w h px j st)
    (OutInv w h px (header_of w h))
    ⟨header_of w h ++ List.replicate (bytesTaken h) 0, 0, List.replicate (max_row_len_bytes w) 0⟩
    ⟨List.replicate (bytesTaken h) 0, rfl, bytes_ok_replicate_zero _, bytes_ok_replicate_zero _,
      by simp, by simp [payload_code_upto], by intro k hk; omega, bits_match_nil _ _,
      by simp only [List.length_replicate, bytesTaken_eq]; omega⟩
    h (fun j s hj hP => compress_iter_spec w h px _ j s hw hj hlen hpx hhdr hP)
  obtain ⟨pl, hbuf, hokpl, _, _, hbb, hpres, hcode, hcapp⟩ := key
  have hw0 : ¬ ((h : Int) = 0 ∨ (w : Int) = 0) := by omega
  refine ⟨resize pl (bytesTaken (h + (payload_code_upto w px h).length)), ?_, resize_length _ _,
    bytes_ok_resize _ _ hokpl, ?_, ?_⟩
  · unfold compress
    simp only [hw0, if_false, Int.toNat_ofNat, initial_buffer_eq, hbuf, hbb,
      resize_append_hdr _ _ _ hhdr]
    simp [hhdr, resize_length, offset_data]
  · intro k hk
    rw [lbit_resize _ _ _ (by rw [bytesTaken_eq]; omega)]
    exact hpres k hk
  · intro k hk
    rw [lbit_resize _ _ _ (by rw [bytesTaken_eq]; omega)]
    exact hcode k hk

theorem read_chunk_succ (data : Nat → Nat) (b n : Nat) :
    Bitter.read_chunk data b (n + 1) =
      (((data (b / 8) >>> (b % 8)) % 256 |||
        ((data ((b + 8) / 8) <<< (8 - b % 8)) &&& 0xFF)) % 256) ::
        Bitter.read_chunk data (b + 8) n := by
  simp [Bitter.read_chunk, CHAR_BIT]

theorem read_chunk_byte (data : Nat → Nat) (b v : Nat) (hv : v < 256) (hd : data (b / 8) < 256)
    (hbits : ∀ t, t < 8 → bit_at data (b + t) = v.testBit t) :
    ((data (b / 8) >>> (b % 8)) % 256 |||
        ((data ((b + 8) / 8) <<< (8 - b % 8)) &&& 0xFF)) % 256 = v := by
  apply Nat.eq_of_testBit_eq
  intro t
  have e256 : (256 : Nat) = 2 ^ 8 := by norm_num
  rw [e256, Nat.testBit_mod_two_pow]
  by_cases ht : t < 8
  · rw [← hbits t ht]
    simp only [ht, decide_True, Bool.true_and, Nat.testBit_or, Nat.testBit_mod_two_pow,
      Nat.testBit_and, Nat.testBit_shiftRight, Nat.testBit_shiftLeft, testBit_ff]
    unfold bit_at
    by_cases hs : b % 8 + t < 8
    · have e1 : (b + t) / 8 = b / 8 := by omega
      have e2 : (b + t) % 8 = b % 8 + t := by omega
      have e3 : ¬ (t ≥ 8 - b % 8) := by omega
      rw [e1, e2]
      simp [e3]
    · have e1 : (b + t) / 8 = (b + 8) / 8 := by omega
      have e2 : (b + t) % 8 = t - (8 - b % 8) := by omega
      have e3 : t ≥ 8 - b % 8 := by omega
      have e4 : (data (b / 8)).testBit (b % 8 + t) = false :=
        testBit_of_lt_256 _ _ hd (by omega)
      rw [e1, e2, e4]
      simp [e3]
  · have : v.testBit t = false := testBit_of_lt_256 _ _ hv (by omega)
    simp [ht, this]

theorem read_chunk_spec (data : Nat → Nat) (n : Nat) : ∀ (b : Nat) (vals : List Nat),
    vals.length = n → (∀ k, vals.getD k 0 < 256) →
    (∀ k, k < n → data ((b + 8 * k) / 8) < 256) →
    (∀ p, p < 8 * n → bit_at data (b + p) = (vals.getD (p / 8) 0).testBit (p % 8)) →
    Bitter.read_chunk data b n = vals := by
  induction n with
  | zero =>
    intro b vals hl _ _ _
    rw [List.length_eq_zero.mp hl]
    rfl
  | succ n ih =>
    intro b vals hl hv hd hbits
    obtain ⟨v, vt, rfl⟩ : ∃ v vt, vals = v :: vt := by
      cases vals with
      | nil => simp at hl
      | cons v vt => exact ⟨v, vt, rfl⟩
    rw [read_chunk_succ, read_chunk_byte data b v (by simpa using hv 0)
      (by simpa using hd 0 (by omega))
      (fun t ht => by
        have := hbits t (by omega)
        have e1 : t / 8 = 0 := by omega
        have e2 : t % 8 = t := by omega
        rw [e1, e2] at this
        simpa using this),
      ih (b + 8) vt (by simpa using hl) (fun k => by simpa using hv (k + 1))
        (fun k hk => by
          have := hd (k + 1) (by omega)
          have e : b + 8 * (k + 1) = b + 8 + 8 * k := by omega
          rw [e] at this; exact this)
        (fun p hp => by
          have := hbits (p + 8) (by omega)
          have e1 : (p + 8) / 8 = p / 8 + 1 := by omega
          have e2 : (p + 8) % 8 = p % 8 := by omega
          have e3 : b + (p + 8) = b + 8 + p := by omega
          rw [e1, e2, e3] at this
          simpa using this)]

theorem store_length (buf : List Nat) (off : Nat) (vals : List Nat)
    (h : off + vals.length ≤ buf.length) : (store buf off vals).length = buf.length := by
  simp [store]; omega

theorem store_take (buf px : List Nat) (off : Nat) (vals : List Nat) (n : Nat)
    (hpre : buf.take off = px.take off)
    (hv : vals = (px.drop off).take n) (hpx : off + n ≤ px.length) :
    (store buf off vals).take (off + n) = px.take (off + n) := by
  have hvl : vals.length = n := by rw [hv]; simp; omega
  have h1 : (px.take off).length = off := by simp; omega
  unfold store
  rw [hpre, List.take_left' (by rw [List.length_append, h1, hvl]), List.take_add, hv]

theorem eq_replicate_of_all (l : List Nat) (v : Nat) (h : l.all (fun p => p == v) = true) :
    l = List.replicate l.length v := by
  rw [List.eq_replicate_iff]
  refine ⟨rfl, ?_⟩
  intro b hb
  have := List.all_eq_true.mp h b hb
  simpa using this

theorem uncompress_chunk_spec (size w : Nat) (bits : Nat → Nat) (row_off c : Nat) (st : DecState)
    (span : List Nat) (plen : Nat)
    (hsize : offset_data + plen ≤ size)
    (hspan_len : span.length = min w (4 * c + 4) - 4 * c)
    (hspan_ok : ∀ k, span.getD k 0 < 256)
    (hbytes : ∀ k, k < plen → bits k < 256)
    (hcap : st.payload_pos + (span_code span).length ≤ 8 * plen)
    (hm : bits_match (bit_at bits) st.payload_pos (span_code span)) :
    ∃ st2, uncompress_chunk size w bits row_off (4 * c) st = .ok st2 ∧
      st2.raw_data = store st.raw_data (row_off + 4 * c) span ∧
      st2.payload_pos = st.payload_pos + (span_code span).length := by
  unfold uncompress_chunk
  simp only [chunk_size_bytes, CHAR_BIT, read_eq_bit_at]
  have hpos := span_code_pos span
  have hc1 : ¬ size < offset_data + st.payload_pos / 8 := by omega
  rw [if_neg hc1]
  by_cases hw : span.all (fun p => p == 0xFF) = true
  · have hcode : span_code span = [false] := by simp [span_code, hw]
    rw [hcode] at hm ⊢
    have h0 := hm 0 (by simp)
    simp only [Nat.add_zero, List.getD_cons_zero] at h0
    rw [h0]
    refine ⟨_, rfl, ?_, by simp⟩
    dsimp only
    rw [← hspan_len]
    rw [← eq_replicate_of_all span 0xFF hw]
  · by_cases hb : span.all (fun p => p == 0) = true
    · have hcode : span_code span = [true, false] := by simp [span_code, hw, hb]
      rw [hcode] at hm hcap ⊢
      have h0 := hm 0 (by simp)
      have h1 := hm 1 (by simp)
      simp only [Nat.add_zero, List.getD_cons_zero, List.getD_cons_succ] at h0 h1
      simp only [List.length_cons, List.length_nil] at hcap
      have hc2 : ¬ size < offset_data + (st.payload_pos + 1) / 8 := by omega
      rw [h0, h1]
      simp only [Bool.not_true, Bool.false_eq_true, if_false, hc2, Bool.not_false, if_true]
      refine ⟨_, rfl, ?_, by simp⟩
      dsimp only
      rw [← hspan_len]
      rw [← eq_replicate_of_all span 0 hb]
    · have hcode : span_code span = true :: true :: span.flatMap byte_bits := by
        simp [span_code, hw, hb]
      rw [hcode] at hm hcap ⊢
      simp only [List.length_cons, flatMap_byte_bits_length] at hcap hm ⊢
      have h0 := hm 0 (by simp)
      have h1 := hm 1 (by simp)
      simp only [Nat.add_zero, List.getD_cons_zero, List.getD_cons_succ] at h0 h1
      have hc2 : ¬ size < offset_data + (st.payload_pos + 1) / 8 := by omega
      have hc3 : ¬ size < offset_data +
          (st.payload_pos + 1 + 1 + (min w (4 * c + 4) - 4 * c) - 1) / 8 := by omega
      rw [h0, h1]
      simp only [Bool.not_true, Bool.false_eq_true, if_false, hc2, hc3]
      refine ⟨_, rfl, ?_, by dsimp only; omega⟩
      dsimp only
      congr 1
      apply read_chunk_spec bits _ _ span hspan_len hspan_ok
      · intro k hk
        apply hbytes
        omega
      · intro p hp
        have h2 := hm (p + 2) (by simp only [List.length_cons, flatMap_byte_bits_length]; omega)
        simp only [List.getD_cons_succ] at h2
        rw [flatMap_byte_bits_getD _ _ (by omega)] at h2
        rw [← h2]
        congr 1
        omega

theorem uncompress_row_induct (size w : Nat) (bits : Nat → Nat) (row_off : Nat)
    (P : Nat → DecState → Prop)
    (hstep : ∀ c st, 4 * c < w → P c st →
      ∃ st2, uncompress_chunk size w bits row_off (4 * c) st = .ok st2 ∧ P (c + 1) st2) :
    ∀ fuel c st, (w + 3) / 4 ≤ c + fuel → c ≤ (w + 3) / 4 → P c st →
      ∃ st2, uncompress_row size w bits row_off fuel (4 * c) st = .ok st2 ∧
        P ((w + 3) / 4) st2 := by
  intro fuel
  induction fuel with
  | zero =>
    intro c st h1 h2 hP
    have : c = (w + 3) / 4 := by omega
    subst this
    exact ⟨st, rfl, hP⟩
  | succ fuel ih =>
    intro c st h1 h2 hP
    unfold uncompress_row
    by_cases h : 4 * c < w
    · rw [if_pos h]
      obtain ⟨st2, e2, hP2⟩ := hstep c st h hP
      rw [e2]
      have := ih (c + 1) st2 (by omega) (by omega) hP2
      rw [Nat.mul_add, Nat.mul_one] at this
      exact this
    · rw [if_neg h]
      have : c = (w + 3) / 4 := by omega
      subst this
      exact ⟨st, rfl, hP⟩

theorem row_code_upto_split (row : List Nat) (c : Nat) : ∀ n, c ≤ n →
    ∃ rest, row_code_upto row n = row_code_upto row c ++ rest := by
  intro n hn
  induction n with
  | zero =>
    have : c = 0 := by omega
    subst this
    exact ⟨[], by simp⟩
  | succ n ih =>
    by_cases h : c = n + 1
    · subst h; exact ⟨[], by simp⟩
    · obtain ⟨rest, hr⟩ := ih (by omega)
      exact ⟨rest ++ span_code (span_of row n), by
        rw [row_code_upto_succ, hr, List.append_assoc]⟩

theorem span_of_row_of (w : Nat) (px : List Nat) (j c : Nat) :
    span_of (row_of w px j) c = (px.drop (w * j + 4 * c)).take (min w (4 * c + 4) - 4 * c) := by
  unfold span_of row_of
  rw [List.drop_take, List.take_take, List.drop_drop]
  congr 1
  omega

theorem row_of_length (w h : Nat) (px : List Nat) (j : Nat) (hj : j < h)
    (hlen : px.length = w * h) : (row_of w px j).length = w := by
  have := row_len_ok w h px j hj hlen
  unfold row_of
  rw [List.length_take]
  omega

theorem bytes_ok_take (l : List Nat) (n : Nat) (h : bytes_ok l) : bytes_ok (l.take n) := by
  intro k
  rw [List.getD_eq_getElem?_getD, List.getElem?_take]
  split
  · have := h k
    rwa [List.getD_eq_getElem?_getD] at this
  · simp

theorem bytes_ok_drop (l : List Nat) (n : Nat) (h : bytes_ok l) : bytes_ok (l.drop n) := by
  intro k
  rw [getD_drop_nat]
  exact h _

theorem uncompress_row_spec (size w h : Nat) (bits : Nat → Nat) (j : Nat) (st : DecState)
    (px : List Nat) (plen : Nat) (hj : j < h) (hlen : px.length = w * h)
    (hpx : bytes_ok px) (hsize : offset_data + plen ≤ size)
    (hbytes : ∀ k, k < plen → bits k < 256)
    (hraw_len : st.raw_data.length = w * h)
    (hraw : st.raw_data.take (w * j) = px.take (w * j))
    (hcap : st.payload_pos + (row_code (row_of w px j)).length ≤ 8 * plen)
    (hm : bits_match (bit_at bits) st.payload_pos (row_code (row_of w px j))) :
    ∃ st2, uncompress_row size w bits (w * j) w 0 st = .ok st2 ∧
      st2.raw_data.length = w * h ∧
      st2.raw_data.take (w * (j + 1)) = px.take (w * (j + 1)) ∧
      st2.payload_pos = st.payload_pos + (row_code (row_of w px j)).length := by
  have hrl := row_of_length w h px j hj hlen
  have hwj : w * (j + 1) ≤ w * h := Nat.mul_le_mul_left w (by omega)
  rw [Nat.mul_add, Nat.mul_one] at hwj
  unfold row_code at hcap hm ⊢
  rw [hrl] at hcap hm ⊢
  have key := uncompress_row_induct size w bits (w * j)
    (fun c s => s.raw_data.length = w * h ∧
      s.raw_data.take (w * j + min (4 * c) w) = px.take (w * j + min (4 * c) w) ∧
      s.payload_pos = st.payload_pos + (row_code_upto (row_of w px j) c).length)
    (by
      intro c s hc ⟨h1, h2, h3⟩
      obtain ⟨rest, hrest⟩ := row_code_upto_split (row_of w px j) (c + 1) ((w + 3) / 4) (by omega)
      rw [hrest, row_code_upto_succ] at hm hcap
      rw [bits_match_append, bits_match_append] at hm
      simp only [List.length_append] at hcap
      have hspan := span_of_row_of w px j c
      have hmin : min (4 * c) w = 4 * c := by omega
      rw [hmin] at h2
      have hsl : (span_of (row_of w px j) c).length = min w (4 * c + 4) - 4 * c := by
        rw [hspan, List.length_take, List.length_drop]; omega
      obtain ⟨s2, e2, r2, p2⟩ := uncompress_chunk_spec size w bits (w * j) c s
        (span_of (row_of w px j) c) plen hsize hsl
        (by rw [hspan]; exact bytes_ok_take _ _ (bytes_ok_drop _ _ hpx)) hbytes
        (by rw [h3]; omega) (by rw [h3]; exact hm.1.2)
      refine ⟨s2, e2, ?_⟩
      dsimp only
      refine ⟨?_, ?_, ?_⟩
      · rw [r2, store_length _ _ _ (by rw [hsl, h1]; omega), h1]
      · have hmin2 : min (4 * (c + 1)) w = 4 * c + (min w (4 * c + 4) - 4 * c) := by omega
        rw [hmin2, ← Nat.add_assoc, r2]
        exact store_take _ px _ _ _ h2 hspan (by rw [hlen]; omega)
      · rw [p2, h3, row_code_upto_succ, List.length_append, Nat.add_assoc])
    w 0 st (by omega) (by omega) ⟨hraw_len, by simpa using hraw, by simp [row_code_upto]⟩
  simp only [Nat.mul_zero] at key
  obtain ⟨st2, e2, g1, g2, g3⟩ := key
  have hmin : min (4 * ((w + 3) / 4)) w = w := by omega
  rw [hmin] at g2
  exact ⟨st2, e2, g1, by rw [Nat.mul_add, Nat.mul_one]; exact g2, g3⟩

theorem payload_code_upto_succ (w : Nat) (px : List Nat) (j : Nat) :
    payload_code_upto w px (j + 1) = payload_code_upto w px j ++
      (if row_white (row_of w px j) then [] else row_code (row_of w px j)) := rfl

theorem payload_code_upto_split (w : Nat) (px : List Nat) (j : Nat) : ∀ n, j ≤ n →
    ∃ rest, payload_code_upto w px n = payload_code_upto w px j ++ rest := by
  intro n hn
  induction n with
  | zero =>
    have : j = 0 := by omega
    subst this
    exact ⟨[], by simp⟩
  | succ n ih =>
    by_cases h : j = n + 1
    · subst h; exact ⟨[], by simp⟩
    · obtain ⟨rest, hr⟩ := ih (by omega)
      exact ⟨rest ++ (if row_white (row_of w px n) then [] else row_code (row_of w px n)), by
        rw [payload_code_upto_succ, hr, List.append_assoc]⟩

theorem uncompress_iter_spec (size w h : Nat) (bits : Nat → Nat) (j : Nat) (st : DecState)
    (px : List Nat) (plen : Nat) (hj : j < h) (hlen : px.length = w * h)
    (hpx : bytes_ok px) (hsize : offset_data + plen ≤ size)
    (hbytes : ∀ k, k < plen → bits k < 256)
    (hcap : h + (payload_code_upto w px h).length ≤ 8 * plen)
    (hpres : ∀ k, k < h → bit_at bits k = !row_white (row_of w px k))
    (hm : bits_match (bit_at bits) h (payload_code_upto w px h))
    (hinv : DecInv w h px j st) :
    ∃ st2, uncompress_iter size w bits j st = .ok st2 ∧ DecInv w h px (j + 1) st2 := by
  obtain ⟨h1, h2, h3⟩ := hinv
  have hrl := row_of_length w h px j hj hlen
  have hwj : w * (j + 1) ≤ w * h := Nat.mul_le_mul_left w (by omega)
  rw [Nat.mul_add, Nat.mul_one] at hwj
  obtain ⟨rest, hrest⟩ := payload_code_upto_split w px (j + 1) h (by omega)
  rw [hrest, payload_code_upto_succ] at hm hcap
  rw [bits_match_append, bits_match_append] at hm
  simp only [List.length_append] at hcap
  unfold uncompress_iter
  simp only [read_eq_bit_at, hpres j hj, Bool.not_not]
  by_cases hwhite : row_white (row_of w px j) = true
  · rw [if_pos hwhite]
    refine ⟨_, rfl, ?_, ?_, ?_⟩
    · dsimp only
      rw [store_length _ _ _ (by simp; omega), h1]
    · dsimp only
      rw [Nat.mul_add, Nat.mul_one]
      refine store_take _ px _ _ _ h2 ?_ (by rw [hlen]; omega)
      have := eq_replicate_of_all (row_of w px j) 0xFF hwhite
      rw [hrl] at this
      rw [← this]; rfl
    · dsimp only
      rw [h3, payload_code_upto_succ, if_pos hwhite, List.append_nil]
  · rw [if_neg hwhite]
    rw [if_neg hwhite] at hm hcap
    obtain ⟨st2, e2, g1, g2, g3⟩ := uncompress_row_spec size w h bits j
      ⟨st.raw_data, st.payload_pos, st.loads ++ [offset_data + j / CHAR_BIT]⟩ px plen hj hlen hpx
      hsize hbytes h1 h2 (by dsimp only; rw [h3]; omega) (by dsimp only; rw [h3]; exact hm.1.2)
    refine ⟨st2, e2, g1, g2, ?_⟩
    rw [g3, payload_code_upto_succ, if_neg hwhite, List.length_append]
    dsimp only
    rw [h3, Nat.add_assoc]

theorem to_size_t_natCast (n : Nat) (hn : n < 2147483648) : to_size_t (n : Int) = n := by
  unfold to_size_t
  omega

theorem uncompress_spec (size : Nat) (data : Nat → Nat) (w h : Nat) (px : List Nat) (plen : Nat)
    (hw31 : w < 2147483648) (hh31 : h < 2147483648)
    (hlen : px.length = w * h) (hpx : bytes_ok px)
    (hmagic : data 0 = barch_format_id)
    (hwid : load_int data offset_width = (w : Int))
    (hhei : load_int data offset_height = (h : Int))
    (hsize : offset_data + plen ≤ size)
    (hcap : h + (payload_code_upto w px h).length ≤ 8 * plen)
    (hbytes : ∀ k, k < plen → data (offset_data + k) < 256)
    (hpres : ∀ k, k < h →
      bit_at (fun k => data (offset_data + k)) k = !row_white (row_of w px k))
    (hm : bits_match (bit_at (fun k => data (offset_data + k))) h (payload_code_upto w px h)) :
    uncompress ⟨size, some data⟩ = ⟨(w : Int), (h : Int), some px⟩ := by
  have hmul : w * h < 18446744073709551616 := by
    have : w * h < 2147483648 * 2147483648 := by
      rcases Nat.eq_zero_or_pos h with h0 | hpos
      · subst h0; simp
      · exact Nat.mul_lt_mul'' hw31 hh31
    omega
  have key := foldl_range_induct
    (uncompress_step size w (fun k => data (offset_data + k)))
    (fun j acc => ∃ st, acc = .ok st ∧ DecInv w h px j st)
    (Except.ok (DecState.mk (List.replicate (w * h) 0) h [0, 1, 2, 3, 4, 5, 6, 7, 8]))
    ⟨_, rfl, by simp, by simp, by simp [payload_code_upto]⟩
    h (by
      intro j s hj ⟨st, hs, hinv⟩
      subst hs
      show ∃ st2, uncompress_iter size w _ j st = .ok st2 ∧ _
      exact uncompress_iter_spec size w h _ j st px plen hj hlen hpx hsize hbytes hcap hpres hm
        hinv)
  obtain ⟨st, hst, g1, g2, _⟩ := key
  have hc0 : ¬ size < offset_data := by omega
  have hc1 : ¬ size < offset_data + bytesTaken h := by rw [bytesTaken_eq]; omega
  unfold uncompress uncompress_run
  simp only [hmagic, bne_self_eq_false, Bool.false_eq_true, if_false, hc0, hwid, hhei,
    to_size_t_natCast w hw31, to_size_t_natCast h hh31, hc1, Nat.mod_eq_of_lt hmul,
    Int.toNat_ofNat, hst]
  have : st.raw_data = px := by
    have e1 := List.take_of_length_le (Nat.le_of_eq g1)
    have e2 := List.take_of_length_le (Nat.le_of_eq hlen)
    rw [← e1, ← e2]; exact g2
  rw [this]

theorem bytes_ok_of_forall_mem (l : List Nat) (h : ∀ p ∈ l, p < 256) : bytes_ok l := by
  intro k
  rw [List.getD_eq_getElem?_getD]
  by_cases hk : k < l.length
  · rw [List.getElem?_eq_getElem hk]
    exact h _ (List.getElem_mem hk)
  · rw [List.getElem?_eq_none (Nat.le_of_not_lt hk)]
    simp

theorem pointer_to_header (hdr pl : List Nat) (beyond : Nat → Nat) (i : Nat)
    (hi : i < hdr.length) : pointer_to (hdr ++ pl) beyond i = hdr.getD i 0 := by
  unfold pointer_to
  rw [List.getD_eq_getElem _ _ (by simp; omega), List.getD_eq_getElem _ _ hi,
    List.getElem_append_left hi]

theorem pointer_to_payload (hdr pl : List Nat) (beyond : Nat → Nat) (k : Nat)
    (hhdr : hdr.length = 9) (hk : k < pl.length) :
    pointer_to (hdr ++ pl) beyond (offset_data + k) = pl.getD k 0 := by
  unfold pointer_to offset_data
  rw [List.getD_eq_getElem _ _ (by simp; omega), List.getD_eq_getElem _ _ hk,
    List.getElem_append_right (by omega)]
  congr 1
  omega

theorem bit_at_pointer_payload (hdr pl : List Nat) (beyond : Nat → Nat) (b : Nat)
    (hhdr : hdr.length = 9) (hb : b < 8 * pl.length) :
    bit_at (fun k => pointer_to (hdr ++ pl) beyond (offset_data + k)) b = lbit pl b := by
  unfold bit_at lbit
  dsimp only
  rw [pointer_to_payload _ _ _ _ hhdr (by omega)]

theorem load_int_header_width (w h : Int) (pl : List Nat) (beyond : Nat → Nat)
    (h0 : 0 ≤ w) (h1 : w < 2147483648) :
    load_int (pointer_to (header_of w h ++ pl) beyond) offset_width = w := by
  have hl := header_of_length w h
  unfold load_int offset_width
  rw [pointer_to_header _ _ _ _ (by omega), pointer_to_header _ _ _ _ (by omega),
    pointer_to_header _ _ _ _ (by omega), pointer_to_header _ _ _ _ (by omega)]
  simp only [header_of, int_bytes, List.cons_append, List.nil_append, List.getD_cons_succ,
    List.getD_cons_zero]
  split <;> omega

theorem load_int_header_height (w h : Int) (pl : List Nat) (beyond : Nat → Nat)
    (h0 : 0 ≤ h) (h1 : h < 2147483648) :
    load_int (pointer_to (header_of w h ++ pl) beyond) offset_height = h := by
  have hl := header_of_length w h
  unfold load_int offset_height
  rw [pointer_to_header _ _ _ _ (by omega), pointer_to_header _ _ _ _ (by omega),
    pointer_to_header _ _ _ _ (by omega), pointer_to_header _ _ _ _ (by omega)]
  simp only [header_of, int_bytes, List.cons_append, List.nil_append, List.getD_cons_succ,
    List.getD_cons_zero]
  split <;> omega

theorem pointer_to_magic (w h : Int) (pl : List Nat) (beyond : Nat → Nat) :
    pointer_to (header_of w h ++ pl) beyond 0 = barch_format_id := by
  rw [pointer_to_header _ _ _ _ (by rw [header_of_length]; omega)]
  rfl

theorem roundtrip_core (w h : Nat) (px : List Nat) (beyond : Nat → Nat)
    (hw : 0 < w) (hh : 0 < h) (hw31 : w < 2147483648) (hh31 : h < 2147483648)
    (hlen : px.length = w * h) (hpx : bytes_ok px) :
    uncompress ((compress ⟨(w : Int), (h : Int), some px⟩).data beyond) =
      ⟨(w : Int), (h : Int), some px⟩ := by
  obtain ⟨pl, hc, hpl, hok, hpres, hcode⟩ := compress_spec w h px hw hh hlen hpx
  have hhdr := header_of_length w h
  have hbt := bytesTaken_eq (h + (payload_code_upto w px h).length)
  rw [hc]
  unfold CompressedImage.data
  simp only [Option.map_some']
  apply uncompress_spec _ _ w h px pl.length hw31 hh31 hlen hpx
  · exact pointer_to_magic _ _ _ _
  · exact load_int_header_width _ _ _ _ (by omega) (by omega)
  · exact load_int_header_height _ _ _ _ (by omega) (by omega)
  · rw [hpl]
  · rw [hpl, hbt]; omega
  · intro k hk
    rw [pointer_to_payload _ _ _ _ hhdr hk]
    exact hok k
  · intro k hk
    rw [bit_at_pointer_payload _ _ _ _ hhdr (by rw [hpl, hbt]; omega)]
    exact hpres k hk
  · intro k hk
    rw [bit_at_pointer_payload _ _ _ _ hhdr (by rw [hpl, hbt]; omega)]
    exact hcode k hk

theorem ceil_div_eight (x : Nat) : ⌈((x : ℕ) : ℚ) / 8⌉₊ = (x + 7) / 8 := by
  apply le_antisymm
  · rw [Nat.ceil_le, div_le_iff₀ (by norm_num)]
    have h : x ≤ (x + 7) / 8 * 8 := by omega
    exact_mod_cast h
  · have h1 := Nat.le_ceil (((x : ℕ) : ℚ) / 8)
    rw [div_le_iff₀ (by norm_num)] at h1
    have h2 : x ≤ ⌈((x : ℕ) : ℚ) / 8⌉₊ * 8 := by exact_mod_cast h1
    omega

theorem span_code_length (span : List Nat) : (span_code span).length = chunk_cost span := by
  unfold span_code chunk_cost
  split
  · rfl
  · split
    · rfl
    · simp only [List.length_cons, flatMap_byte_bits_length]; omega

theorem span_of_eq_chunk (w : Nat) (row : List Nat) (c : Nat) (hrow : row.length = w)
    (hc : 4 * c < w) : span_of row c = (row.drop (4 * c)).take (chunk_len w c) := by
  unfold span_of chunk_len
  split
  · rfl
  · rw [List.take_of_length_le (by rw [List.length_drop]; omega),
      List.take_of_length_le (by rw [List.length_drop]; omega)]

theorem sum_map_range_succ (f : Nat → Nat) (n : Nat) :
    ((List.range (n + 1)).map f).sum = ((List.range n).map f).sum + f n := by
  rw [List.range_succ, List.map_append, List.sum_append]
  simp

theorem row_code_upto_length (w : Nat) (row : List Nat) (hrow : row.length = w) :
    ∀ c, c ≤ (w + 3) / 4 → (row_code_upto row c).length =
      ((List.range c).map
        (fun c => chunk_cost ((row.drop (4 * c)).take (chunk_len w c)))).sum := by
  intro c
  induction c with
  | zero => intro _; rfl
  | succ c ih =>
    intro hc
    rw [row_code_upto_succ, List.length_append, ih (by omega), sum_map_range_succ,
      span_code_length, span_of_eq_chunk w row c hrow (by omega)]

theorem row_code_length (w : Nat) (row : List Nat) (hrow : row.length = w) :
    (row_code row).length = row_cost w row := by
  unfold row_code row_cost
  rw [hrow]
  exact row_code_upto_length w row hrow _ (Nat.le_refl _)

theorem payload_code_upto_length (w h : Nat) (px : List Nat) (hlen : px.length = w * h) :
    ∀ j, j ≤ h → (payload_code_upto w px j).length = totalPayloadBits w j px := by
  intro j
  induction j with
  | zero => intro _; rfl
  | succ j ih =>
    intro hj
    unfold totalPayloadBits at ih ⊢
    rw [payload_code_upto_succ, List.length_append, ih (by omega), sum_map_range_succ]
    congr 1
    split
    · rfl
    · exact row_code_length w _ (row_of_length w h px j (by omega) hlen)

theorem row_of_replicate (w h v j : Nat) (hj : j < h) :
    row_of w (List.replicate (w * h) v) j = List.replicate w v := by
  have hwj : w * (j + 1) ≤ w * h := Nat.mul_le_mul_left w (by omega)
  rw [Nat.mul_add, Nat.mul_one] at hwj
  unfold row_of
  rw [List.drop_replicate, List.take_replicate]
  congr 1
  omega

theorem bytes_ok_replicate (n v : Nat) (hv : v < 256) : bytes_ok (List.replicate n v) := by
  apply bytes_ok_of_forall_mem
  intro p hp
  rw [List.eq_of_mem_replicate hp]
  exact hv

theorem resize_replicate_zero (n m : Nat) :
    resize (List.replicate n 0) m = List.replicate m 0 := by
  unfold resize
  rw [List.take_replicate, List.length_replicate, ← List.replicate_add]
  congr 1
  omega

theorem modify_replicate_zero (n i : Nat) (f : Nat → Nat) (hf : f 0 % 256 = 0) :
    Bitter.modify (List.replicate n 0) i f = List.replicate n 0 := by
  unfold Bitter.modify
  apply List.ext_getElem
  · simp
  · intro k h1 h2
    rw [List.getElem_set]
    split
    · rw [List.getD_eq_getElem?_getD, List.getElem?_replicate]
      split
      · simp [hf]
      · simp [hf]
    · rfl

theorem clear_replicate_zero (n j : Nat) :
    Bitter.clear (List.replicate n 0) j = List.replicate n 0 := by
  unfold Bitter.clear
  exact modify_replicate_zero _ _ _ (by simp)

theorem compress_all_white (w h : Nat) (hw : 0 < w) (hh : 0 < h) :
    compress ⟨(w : Int), (h : Int), some (List.replicate (w * h) 0xFF)⟩ =
      ⟨offset_data + bytesTaken h,
        some (header_of w h ++ List.replicate (bytesTaken h) 0)⟩ := by
  have hhdr := header_of_length w h
  have hlen : (List.replicate (w * h) 0xFF).length = w * h := List.length_replicate _ _
  have hpx : bytes_ok (List.replicate (w * h) 0xFF) := bytes_ok_replicate _ _ (by norm_num)
  have hmrl := max_row_len_bytes_eq w hw
  have key := foldl_range_induct
    (fun st j => compress_iter w h (List.replicate (w * h) 0xFF) j st)
    (fun j st => OutInv w h (List.replicate (w * h) 0xFF) (header_of w h) j st ∧
      st.buffer_bits = 0 ∧ ∃ n, st.buffer = header_of w h ++ List.replicate n 0)
    ⟨header_of w h ++ List.replicate (bytesTaken h) 0, 0, List.replicate (max_row_len_bytes w) 0⟩
    ⟨⟨List.replicate (bytesTaken h) 0, rfl, bytes_ok_replicate_zero _, bytes_ok_replicate_zero _,
      by simp, by simp [payload_code_upto], by intro k hk; omega, bits_match_nil _ _,
      by simp only [List.length_replicate, bytesTaken_eq]; omega⟩, rfl, _, rfl⟩
    h (by
      intro j s hj ⟨hinv, hbb, n, hbuf⟩
      refine ⟨compress_iter_spec w h _ _ j s hw hj hlen hpx hhdr hinv, ?_⟩
      obtain ⟨pl, _, _, hokrb, hrbl, _, _, _, _⟩ := hinv
      have hrow := compress_row_spec w ((List.replicate (w * h) 0xFF).drop (w * j)) s.row_buffer
        (row_len_ok w h _ j hj hlen) (fun k => by rw [getD_drop_nat]; exact hpx _)
        (by rw [hrbl, hmrl, bytesTaken_eq]; omega) hokrb
      obtain ⟨_, _, _, _, r5, _⟩ := hrow
      have hrowof : ((List.replicate (w * h) 0xFF).drop (w * j)).take w =
          row_of w (List.replicate (w * h) 0xFF) j := rfl
      rw [hrowof, row_of_replicate w h _ j hj] at r5
      have hwhite : (compress_row w ((List.replicate (w * h) 0xFF).drop (w * j)) w 0
          ⟨s.row_buffer, 0, true⟩).all_row_white = true := by
        rw [r5]; simp
      unfold compress_iter
      simp only [hwhite, if_true, hbuf, hbb, Nat.add_assoc, resize_append_hdr _ _ _ hhdr,
        on_payload_append _ _ _ hhdr, resize_replicate_zero, clear_replicate_zero]
      exact ⟨trivial, _, rfl⟩)
  obtain ⟨_, hbb, n, hbuf⟩ := key
  have hw0 : ¬ ((h : Int) = 0 ∨ (w : Int) = 0) := by omega
  unfold compress
  simp only [hw0, if_false, Int.toNat_ofNat, initial_buffer_eq, hbuf, hbb,
    resize_append_hdr _ _ _ hhdr, resize_replicate_zero]
  simp [hhdr, offset_data]

theorem alt_code_length (n : Nat) : (alt_code n).length = 2 * n := by
  induction n with
  | zero => rfl
  | succ n ih => simp only [alt_code, List.length_append, ih, List.length_cons, List.length_nil]; omega

theorem alt_code_add (a b : Nat) : alt_code (a + b) = alt_code a ++ alt_code b := by
  induction b with
  | zero => simp [alt_code]
  | succ b ih => rw [← Nat.add_assoc]; simp only [alt_code, ih, List.append_assoc]

theorem alt_code_getD (n : Nat) : ∀ k, k < 2 * n →
    (alt_code n).getD k false = decide (k % 2 = 0) := by
  induction n with
  | zero => intro k hk; omega
  | succ n ih =>
    intro k hk
    simp only [alt_code]
    by_cases h : k < 2 * n
    · rw [List.getD_append _ _ _ _ (by rw [alt_code_length]; exact h)]
      exact ih k h
    · rw [List.getD_append_right _ _ _ _ (by rw [alt_code_length]; omega), alt_code_length]
      have hk2 : k - 2 * n = 0 ∨ k - 2 * n = 1 := by omega
      rcases hk2 with e | e
      · rw [e]
        have : k % 2 = 0 := by omega
        simp [this]
      · rw [e]
        have : ¬ k % 2 = 0 := by omega
        simp [this]

theorem span_of_replicate (w v c : Nat) :
    span_of (List.replicate w v) c = List.replicate (min 4 (w - 4 * c)) v := by
  unfold span_of
  rw [List.drop_replicate, List.take_replicate]

theorem span_code_black (m : Nat) (hm : 0 < m) : span_code (List.replicate m 0) = [true, false] := by
  obtain ⟨k, rfl⟩ : ∃ k, m = k + 1 := ⟨m - 1, by omega⟩
  simp [span_code, List.replicate_succ]

theorem row_code_upto_black (w : Nat) : ∀ c, c ≤ (w + 3) / 4 →
    row_code_upto (List.replicate w 0) c = alt_code c := by
  intro c
  induction c with
  | zero => intro _; rfl
  | succ c ih =>
    intro hc
    rw [row_code_upto_succ, ih (by omega), span_of_replicate, span_code_black _ (by omega)]
    rfl

theorem row_code_black (w : Nat) : row_code (List.replicate w 0) = alt_code ((w + 3) / 4) := by
  unfold row_code
  rw [List.length_replicate]
  exact row_code_upto_black w _ (Nat.le_refl _)

theorem row_white_black (w : Nat) (hw : 0 < w) : row_white (List.replicate w 0) = false := by
  obtain ⟨k, rfl⟩ : ∃ k, w = k + 1 := ⟨w - 1, by omega⟩
  simp [row_white, List.replicate_succ]

theorem payload_code_upto_black (w h : Nat) (hw : 0 < w) : ∀ j, j ≤ h →
    payload_code_upto w (List.replicate (w * h) 0) j = alt_code (j * ((w + 3) / 4)) := by
  intro j
  induction j with
  | zero => intro _; simp [payload_code_upto, alt_code]
  | succ j ih =>
    intro hj
    rw [payload_code_upto_succ, ih (by omega), row_of_replicate w h 0 j (by omega),
      row_white_black w hw, row_code_black, Nat.succ_mul, alt_code_add]
    simp

theorem ceil_div_four (x : Nat) : ⌈((x : ℕ) : ℚ) / 4⌉₊ = (x + 3) / 4 := by
  apply le_antisymm
  · rw [Nat.ceil_le, div_le_iff₀ (by norm_num)]
    have h : x ≤ (x + 3) / 4 * 4 := by omega
    exact_mod_cast h
  · have h1 := Nat.le_ceil (((x : ℕ) : ℚ) / 4)
    rw [div_le_iff₀ (by norm_num)] at h1
    have h2 : x ≤ ⌈((x : ℕ) : ℚ) / 4⌉₊ * 4 := by exact_mod_cast h1
    omega

theorem load_int_range (data : Nat → Nat) (off : Nat) :
    -2147483648 ≤ load_int data off ∧ load_int data off < 2147483648 := by
  unfold load_int
  dsimp only
  split <;> omega

theorem int_ceil_div_eight (n : Nat) : ⌈(((n : ℕ) : ℤ) : ℚ) / 8⌉ = (((n + 7) / 8 : ℕ) : ℤ) := by
  have h := ceil_div_eight n
  have h2 := @Int.natCast_ceil_eq_ceil ℚ _ _ (((n : ℕ) : ℚ) / 8) (by positivity)
  rw [h] at h2
  rw [Int.cast_natCast, ← h2]

theorem uncompress_header_check (size : Nat) (data : Nat → Nat)
    (h : data 0 ≠ barch_format_id ∨ size < 9 ∨
      (size : Int) < 9 + ⌈((load_int data offset_height : ℤ) : ℚ) / 8⌉) :
    uncompress ⟨size, some data⟩ = ⟨0, 0, none⟩ := by
  unfold uncompress uncompress_run
  dsimp only
  by_cases h1 : data 0 = barch_format_id
  · by_cases h2 : size < offset_data
    · simp [h1, h2]
    · have h3 : size < offset_data + bytesTaken (to_size_t (load_int data offset_height)) := by
        have hr := load_int_range data offset_height
        rcases h with h | h | h
        · exact absurd h1 h
        · exact absurd h h2
        · by_cases hneg : load_int data offset_height < 0
          · have hc : ⌈((load_int data offset_height : ℤ) : ℚ) / 8⌉ ≤ 0 := by
              rw [Int.ceil_le]
              have : ((load_int data offset_height : ℤ) : ℚ) ≤ 0 := by exact_mod_cast hneg.le
              simp only [Int.cast_zero]
              linarith
            unfold offset_data at h2
            omega
          · obtain ⟨n, hn⟩ : ∃ n : Nat, load_int data offset_height = (n : Int) :=
              ⟨(load_int data offset_height).toNat, by omega⟩
            rw [hn] at h hr ⊢
            rw [int_ceil_div_eight] at h
            rw [to_size_t_natCast n (by omega), bytesTaken_eq]
            unfold offset_data
            omega
      simp [h1, h2, h3]
  · simp [h1]

/-! ### The fuel of the chunk loops

Both chunk loops leave by their loop condition: once the fuel covers the ceil(width / 4)
chunks that remain, more fuel changes nothing. `compress` and `uncompress` pass `width`. -/

theorem compress_row_fuel (w : Nat) (raw_row : List Nat) :
    ∀ fuel1 fuel2 c st, (w + 3) / 4 ≤ c + fuel1 → (w + 3) / 4 ≤ c + fuel2 →
      compress_row w raw_row fuel1 (4 * c) st = compress_row w raw_row fuel2 (4 * c) st := by
  intro fuel1
  induction fuel1 with
  | zero =>
    intro fuel2 c st h1 _
    cases fuel2 with
    | zero => rfl
    | succ f2 =>
      have : ¬ 4 * c < w := by omega
      simp [compress_row, this]
  | succ f1 ih =>
    intro fuel2 c st h1 h2
    cases fuel2 with
    | zero =>
      have : ¬ 4 * c < w := by omega
      simp [compress_row, this]
    | succ f2 =>
      unfold compress_row
      by_cases h : 4 * c < w
      · rw [if_pos h, if_pos h]
        have := ih f2 (c + 1) (compress_chunk w raw_row (4 * c) st) (by omega) (by omega)
        rw [Nat.mul_add, Nat.mul_one] at this
        exact this
      · rw [if_neg h, if_neg h]

theorem uncompress_row_fuel (size w : Nat) (bits : Nat → Nat) (row_off : Nat) :
    ∀ fuel1 fuel2 c st, (w + 3) / 4 ≤ c + fuel1 → (w + 3) / 4 ≤ c + fuel2 →
      uncompress_row size w bits row_off fuel1 (4 * c) st =
        uncompress_row size w bits row_off fuel2 (4 * c) st := by
  intro fuel1
  induction fuel1 with
  | zero =>
    intro fuel2 c st h1 _
    cases fuel2 with
    | zero => rfl
    | succ f2 =>
      have : ¬ 4 * c < w := by omega
      simp [uncompress_row, this]
  | succ f1 ih =>
    intro fuel2 c st h1 h2
    cases fuel2 with
    | zero =>
      have : ¬ 4 * c < w := by omega
      simp [uncompress_row, this]
    | succ f2 =>
      unfold uncompress_row
      by_cases h : 4 * c < w
      · rw [if_pos h, if_pos h]
        cases hstep : uncompress_chunk size w bits row_off (4 * c) st with
        | error loads => rfl
        | ok st2 =>
          have := ih f2 (c + 1) st2 (by omega) (by omega)
          rw [Nat.mul_add, Nat.mul_one] at this
          exact this
      · rw [if_neg h, if_neg h]

/-! ## The claims -/

/-- Claim C1 (round trip). For every width > 0 and height > 0 that fit in `int`, every pixel
buffer of exactly `width * height` bytes, and whatever memory lies behind the compressed
buffer, `uncompress (compress image)` returns the same width, the same height and a pixel
buffer equal byte for byte to the input. -/
theorem uncompress_compress_round_trip (width height : Nat) (pixels : List Nat)
    (beyond : Nat → Nat) (hw : 0 < width) (hh : 0 < height)
    (hwi : width < 2147483648) (hhi : height < 2147483648)
    (hlen : pixels.length = width * height) (hbytes : ∀ p ∈ pixels, p < 256) :
    uncompress ((compress ⟨(width : Int), (height : Int), some pixels⟩).data beyond) =
      ⟨(width : Int), (height : Int), some pixels⟩ :=
  roundtrip_core width height pixels beyond hw hh hwi hhi hlen
    (bytes_ok_of_forall_mem pixels hbytes)

/-- Witness for C1: a 5 x 3 image with white, black and literal chunks and a short last chunk. -/
theorem uncompress_compress_round_trip_witness :
    uncompress ((compress ⟨((5 : Nat) : Int), ((3 : Nat) : Int),
        some [0, 0, 0, 0, 7, 255, 255, 255, 255, 255, 1, 2, 3, 4, 255]⟩).data (fun _ => 0)) =
      ⟨((5 : Nat) : Int), ((3 : Nat) : Int),
        some [0, 0, 0, 0, 7, 255, 255, 255, 255, 255, 1, 2, 3, 4, 255]⟩ :=
  uncompress_compress_round_trip 5 3 [0, 0, 0, 0, 7, 255, 255, 255, 255, 255, 1, 2, 3, 4, 255]
    (fun _ => 0) (by decide) (by decide) (by decide) (by decide) (by decide) (by decide)

/-- Claim C2, evaluated at a failing input. `compress` of the 4 x 1 image `[1, 2, 3, 4]` has
14 bytes. Cut to its first 13 bytes (with `size_bytes = 13`, and 0xFF bytes behind the
buffer), `uncompress` does not return the sentinel: it loads offset 13, one past the end, and
returns a 4 x 1 image whose last pixel is made of bits from behind the buffer. -/
theorem uncompress_truncated_not_rejected :
    compress ⟨4, 1, some [1, 2, 3, 4]⟩ =
      ⟨14, some [186, 4, 0, 0, 0, 1, 0, 0, 0, 15, 16, 24, 32, 0]⟩ ∧
    uncompress ⟨13, some (pointer_to
        ([186, 4, 0, 0, 0, 1, 0, 0, 0, 15, 16, 24, 32, 0].take 13) (fun _ => 255))⟩ =
      ⟨4, 1, some [1, 2, 3, 228]⟩ ∧
    13 ∈ uncompress_loads ⟨13, some (pointer_to
        ([186, 4, 0, 0, 0, 1, 0, 0, 0, 15, 16, 24, 32, 0].take 13) (fun _ => 255))⟩ := by
  decide

/-- Claim C3 (header validation). For every present input buffer, if its first byte is not
0xBA, or its length is less than 9, or its length is less than 9 + ceil(height / 8) where
height is the signed 32-bit value stored at offset 5, then `uncompress` returns the sentinel
(width 0, height 0, no buffer). -/
theorem uncompress_header_validation (size_bytes : Nat) (data : Nat → Nat)
    (h : data 0 ≠ 0xBA ∨ size_bytes < 9 ∨
      (size_bytes : Int) < 9 + ⌈((load_int data 5 : ℤ) : ℚ) / 8⌉) :
    uncompress ⟨size_bytes, some data⟩ = ⟨0, 0, none⟩ :=
  uncompress_header_check size_bytes data h

/-- Witness for C3: a 10-byte buffer whose header announces height 100, which needs
9 + 13 bytes. -/
theorem uncompress_header_validation_witness :
    uncompress ⟨10, some (pointer_to [0xBA, 4, 0, 0, 0, 100, 0, 0, 0, 0] (fun _ => 0))⟩ =
      ⟨0, 0, none⟩ :=
  uncompress_header_validation 10 (pointer_to [0xBA, 4, 0, 0, 0, 100, 0, 0, 0, 0] (fun _ => 0))
    (Or.inr (Or.inr (by
      have e : load_int (pointer_to [0xBA, 4, 0, 0, 0, 100, 0, 0, 0, 0] (fun _ => 0)) 5 = 100 := by
        decide
      rw [e]
      have h1 : (1 : ℤ) < ⌈(((100 : ℤ) : ℚ)) / 8⌉ := Int.lt_ceil.mpr (by norm_num)
      have h2 : ((10 : ℕ) : ℤ) = 10 := rfl
      omega)))

/-- Claim C4, evaluated at failing inputs. Decoding the output of `compress` for the 1 x 6
image whose last row is the literal pixel 0x55 (11 bytes) succeeds but loads offset 11, which
is not below `size_bytes = 11`; and for a present buffer of length 0 `uncompress` loads
offset 0. -/
theorem uncompress_loads_out_of_bounds :
    (compress ⟨1, 6, some [255, 255, 255, 255, 255, 85]⟩).size_bytes = 11 ∧
    uncompress ((compress ⟨1, 6, some [255, 255, 255, 255, 255, 85]⟩).data (fun _ => 0)) =
      ⟨1, 6, some [255, 255, 255, 255, 255, 85]⟩ ∧
    11 ∈ uncompress_loads
      ((compress ⟨1, 6, some [255, 255, 255, 255, 255, 85]⟩).data (fun _ => 0)) ∧
    0 ∈ uncompress_loads ⟨0, some (pointer_to [] (fun _ => 0))⟩ := by
  decide

/-- Claim C5, evaluated at a failing input. In the 10-byte buffer with width 4, height 1 and
payload byte 7 the decoder reads presence bit 1 and code bits 1,1, so the literal span of
len = 4 pixels starts at bit cursor p = 3 and ends in byte 9 + (3 + 8 * 4 - 1) / 8 = 13, which
the buffer does not contain; `uncompress` nevertheless copies the four literal bytes, taken
from offsets 9 to 13, and returns a non-sentinel image. -/
theorem uncompress_literal_span_unchecked :
    ¬ (10 > 9 + (3 + 8 * 4 - 1) / 8) ∧
    uncompress ⟨10, some (pointer_to [0xBA, 4, 0, 0, 0, 1, 0, 0, 0, 7] (fun _ => 0xAB))⟩ =
      ⟨4, 1, some [96, 117, 117, 117]⟩ ∧
    13 ∈ uncompress_loads
      ⟨10, some (pointer_to [0xBA, 4, 0, 0, 0, 1, 0, 0, 0, 7] (fun _ => 0xAB))⟩ := by
  decide

theorem drop_header (hdr pl : List Nat) (h : hdr.length = 9) : (hdr ++ pl).drop 9 = pl := by
  rw [← h, List.drop_left]

/-- Claim C6 (payload format). For every image with width > 0 and height > 0, the payload of
`compress image`, read LSB-first from byte 9, holds in bit `j`, for every row `j < height`,
0 if every pixel of row `j` is 0xFF and 1 otherwise; and from bit `height` on it holds exactly
the concatenation, in row order and without padding, of the codes of the rows that are not
entirely 0xFF, each chunk of up to 4 pixels coded as 0, as 1,0 or as 1,1 followed by the 8 bits
of each pixel LSB-first (`payload_code_upto`). All these bits lie inside the buffer. -/
theorem compress_payload_format (width height : Nat) (pixels : List Nat)
    (hw : 0 < width) (hh : 0 < height)
    (hlen : pixels.length = width * height) (hbytes : ∀ p ∈ pixels, p < 256) :
    ∃ buf, (compress ⟨(width : Int), (height : Int), some pixels⟩).compressed_data = some buf ∧
      height + (payload_code_upto width pixels height).length ≤ 8 * (buf.drop 9).length ∧
      (∀ j, j < height → lbit (buf.drop 9) j = !row_white (row_of width pixels j)) ∧
      bits_match (lbit (buf.drop 9)) height (payload_code_upto width pixels height) := by
  obtain ⟨pl, hc, hpl, _, hpres, hcode⟩ :=
    compress_spec width height pixels hw hh hlen (bytes_ok_of_forall_mem pixels hbytes)
  refine ⟨header_of width height ++ pl, by rw [hc], ?_, ?_, ?_⟩
  · rw [drop_header _ _ (header_of_length _ _), hpl, bytesTaken_eq]; omega
  · rw [drop_header _ _ (header_of_length _ _)]; exact hpres
  · rw [drop_header _ _ (header_of_length _ _)]; exact hcode

/-- Witness for C6: a 5 x 3 image with a white row, a black chunk and literal chunks. -/
theorem compress_payload_format_witness :
    ∃ buf, (compress ⟨((5 : Nat) : Int), ((3 : Nat) : Int),
        some [0, 0, 0, 0, 7, 255, 255, 255, 255, 255, 1, 2, 3, 4, 255]⟩).compressed_data =
          some buf ∧
      3 + (payload_code_upto 5 [0, 0, 0, 0, 7, 255, 255, 255, 255, 255, 1, 2, 3, 4, 255] 3).length
        ≤ 8 * (buf.drop 9).length ∧
      (∀ j, j < 3 → lbit (buf.drop 9) j =
        !row_white (row_of 5 [0, 0, 0, 0, 7, 255, 255, 255, 255, 255, 1, 2, 3, 4, 255] j)) ∧
      bits_match (lbit (buf.drop 9)) 3
        (payload_code_upto 5 [0, 0, 0, 0, 7, 255, 255, 255, 255, 255, 1, 2, 3, 4, 255] 3) :=
  compress_payload_format 5 3 [0, 0, 0, 0, 7, 255, 255, 255, 255, 255, 1, 2, 3, 4, 255]
    (by decide) (by decide) (by decide) (by decide)

/-- Claim C7 (exact output length). For every image with width > 0 and height > 0 the length
of `compress image` is 9 + ceil((height + totalPayloadBits) / 8), where `totalPayloadBits`
sums, over the rows that are not entirely 0xFF, the cost of each of the row's ceil(width / 4)
chunks: 1 bit for an all-0xFF chunk, 2 bits for an all-0x00 chunk and 2 + 8 * len bits for any
other chunk, len being 4 except for a final chunk of width mod 4 pixels; so width 5 gives two
chunks per row, of lengths 4 and 1. -/
theorem compress_exact_length (width height : Nat) (pixels : List Nat)
    (hw : 0 < width) (hh : 0 < height)
    (hlen : pixels.length = width * height) (hbytes : ∀ p ∈ pixels, p < 256) :
    (∃ buf, compress ⟨(width : Int), (height : Int), some pixels⟩ =
        ⟨9 + ⌈((height + totalPayloadBits width height pixels : ℕ) : ℚ) / 8⌉₊, some buf⟩ ∧
      buf.length = 9 + ⌈((height + totalPayloadBits width height pixels : ℕ) : ℚ) / 8⌉₊) ∧
    ⌈((5 : ℕ) : ℚ) / 4⌉₊ = 2 ∧ chunk_len 5 0 = 4 ∧ chunk_len 5 1 = 1 := by
  obtain ⟨pl, hc, hpl, _, _, _⟩ :=
    compress_spec width height pixels hw hh hlen (bytes_ok_of_forall_mem pixels hbytes)
  rw [payload_code_upto_length width height pixels hlen height (Nat.le_refl _),
    bytesTaken_eq] at hc hpl
  refine ⟨⟨header_of width height ++ pl, ?_, ?_⟩, ?_, by decide, by decide⟩
  · rw [hc, ceil_div_eight]; rfl
  · rw [List.length_append, header_of_length, hpl, ceil_div_eight]
  · rw [ceil_div_four]

/-- Witness for C7: a 5 x 3 image, two chunks per row. -/
theorem compress_exact_length_witness :
    (∃ buf, compress ⟨((5 : Nat) : Int), ((3 : Nat) : Int),
        some [0, 0, 0, 0, 7, 255, 255, 255, 255, 255, 1, 2, 3, 4, 255]⟩ =
        ⟨9 + ⌈((3 + totalPayloadBits 5 3
          [0, 0, 0, 0, 7, 255, 255, 255, 255, 255, 1, 2, 3, 4, 255] : ℕ) : ℚ) / 8⌉₊, some buf⟩ ∧
      buf.length = 9 + ⌈((3 + totalPayloadBits 5 3
          [0, 0, 0, 0, 7, 255, 255, 255, 255, 255, 1, 2, 3, 4, 255] : ℕ) : ℚ) / 8⌉₊) ∧
    ⌈((5 : ℕ) : ℚ) / 4⌉₊ = 2 ∧ chunk_len 5 0 = 4 ∧ chunk_len 5 1 = 1 :=
  compress_exact_length 5 3 [0, 0, 0, 0, 7, 255, 255, 255, 255, 255, 1, 2, 3, 4, 255]
    (by decide) (by decide) (by decide) (by decide)

/-- Claim C8 (all-white economy). For every W > 0 and H > 0 that fit in `int`, compressing
the W x H image whose pixels are all 0xFF yields exactly 9 + ceil(H / 8) bytes: the 9-byte
header followed by ceil(H / 8) bytes that are all 0x00; `uncompress` of that output returns the
same all-0xFF image; and for W = 4, H = 1 the output is the 10 bytes
BA 04 00 00 00 01 00 00 00 00. -/
theorem compress_all_white_economy (W H : Nat) (hW : 0 < W) (hH : 0 < H)
    (hWi : W < 2147483648) (hHi : H < 2147483648) :
    compress ⟨(W : Int), (H : Int), some (List.replicate (W * H) 0xFF)⟩ =
      ⟨9 + ⌈((H : ℕ) : ℚ) / 8⌉₊,
        some (0xBA :: int_bytes W ++ int_bytes H ++ List.replicate ⌈((H : ℕ) : ℚ) / 8⌉₊ 0x00)⟩ ∧
    (∀ beyond : Nat → Nat,
      uncompress ((compress ⟨(W : Int), (H : Int),
          some (List.replicate (W * H) 0xFF)⟩).data beyond) =
        ⟨(W : Int), (H : Int), some (List.replicate (W * H) 0xFF)⟩) ∧
    compress ⟨4, 1, some [0xFF, 0xFF, 0xFF, 0xFF]⟩ =
      ⟨10, some [0xBA, 0x04, 0x00, 0x00, 0x00, 0x01, 0x00, 0x00, 0x00, 0x00]⟩ := by
  refine ⟨?_, ?_, by decide⟩
  · rw [compress_all_white W H hW hH, ceil_div_eight, bytesTaken_eq]
    rfl
  · intro beyond
    exact roundtrip_core W H _ beyond hW hH hWi hHi (List.length_replicate _ _)
      (bytes_ok_replicate _ _ (by norm_num))

/-- Witness for C8: the all-white 3 x 9 image (two presence bytes). -/
theorem compress_all_white_economy_witness :
    compress ⟨((3 : Nat) : Int), ((9 : Nat) : Int), some (List.replicate (3 * 9) 0xFF)⟩ =
      ⟨9 + ⌈((9 : ℕ) : ℚ) / 8⌉₊,
        some (0xBA :: int_bytes (3 : Nat) ++ int_bytes (9 : Nat) ++
          List.replicate ⌈((9 : ℕ) : ℚ) / 8⌉₊ 0x00)⟩ ∧
    (∀ beyond : Nat → Nat,
      uncompress ((compress ⟨((3 : Nat) : Int), ((9 : Nat) : Int),
          some (List.replicate (3 * 9) 0xFF)⟩).data beyond) =
        ⟨((3 : Nat) : Int), ((9 : Nat) : Int), some (List.replicate (3 * 9) 0xFF)⟩) ∧
    compress ⟨4, 1, some [0xFF, 0xFF, 0xFF, 0xFF]⟩ =
      ⟨10, some [0xBA, 0x04, 0x00, 0x00, 0x00, 0x01, 0x00, 0x00, 0x00, 0x00]⟩ :=
  compress_all_white_economy 3 9 (by decide) (by decide) (by decide) (by decide)

/-- Claim C9 (all-black economy). For every W > 0 and H > 0, compressing the W x H image
whose pixels are all 0x00 yields a payload whose first H bits are all 1 and whose following
2 * H * ceil(W / 4) bits are H * ceil(W / 4) repetitions of the two-bit code 1,0, with nothing
after them: the output length is 9 + ceil(H * (1 + 2 * ceil(W / 4)) / 8). For W = 4, H = 1 the
output is the 9-byte header followed by the payload byte 0x03, and `uncompress` of it returns
the 4 black pixels. -/
theorem compress_all_black_economy (W H : Nat) (hW : 0 < W) (hH : 0 < H) :
    (∃ buf, compress ⟨(W : Int), (H : Int), some (List.replicate (W * H) 0x00)⟩ =
        ⟨9 + ⌈((H * (1 + 2 * ⌈((W : ℕ) : ℚ) / 4⌉₊) : ℕ) : ℚ) / 8⌉₊, some buf⟩ ∧
      buf.length = 9 + ⌈((H * (1 + 2 * ⌈((W : ℕ) : ℚ) / 4⌉₊) : ℕ) : ℚ) / 8⌉₊ ∧
      (∀ j, j < H → lbit (buf.drop 9) j = true) ∧
      (∀ k, k < 2 * (H * ⌈((W : ℕ) : ℚ) / 4⌉₊) →
        lbit (buf.drop 9) (H + k) = decide (k % 2 = 0))) ∧
    compress ⟨4, 1, some [0x00, 0x00, 0x00, 0x00]⟩ =
      ⟨10, some [0xBA, 0x04, 0x00, 0x00, 0x00, 0x01, 0x00, 0x00, 0x00, 0x03]⟩ ∧
    (∀ beyond : Nat → Nat,
      uncompress ((compress ⟨4, 1, some [0x00, 0x00, 0x00, 0x00]⟩).data beyond) =
        ⟨4, 1, some [0x00, 0x00, 0x00, 0x00]⟩) := by
  refine ⟨?_, by decide, fun beyond =>
    roundtrip_core 4 1 [0, 0, 0, 0] beyond (by decide) (by decide) (by decide) (by decide)
      (by decide) (bytes_ok_of_forall_mem _ (by decide))⟩
  obtain ⟨pl, hc, hpl, _, hpres, hcode⟩ :=
    compress_spec W H (List.replicate (W * H) 0) hW hH (List.length_replicate _ _)
      (bytes_ok_replicate _ _ (by norm_num))
  rw [payload_code_upto_black W H hW H (Nat.le_refl _)] at hc hpl hcode
  rw [alt_code_length, bytesTaken_eq] at hc hpl
  have e : H + 2 * (H * ((W + 3) / 4)) = H * (1 + 2 * ((W + 3) / 4)) := by ring
  rw [ceil_div_four, ceil_div_eight, ← e]
  refine ⟨header_of W H ++ pl, by rw [hc]; rfl, ?_, ?_, ?_⟩
  · rw [List.length_append, header_of_length, hpl]
  · intro j hj
    rw [drop_header _ _ (header_of_length _ _), hpres j hj,
      row_of_replicate W H 0 j hj, row_white_black W hW]
    rfl
  · intro k hk
    rw [drop_header _ _ (header_of_length _ _), hcode k (by rw [alt_code_length]; exact hk),
      alt_code_getD _ k hk]

/-- Witness for C9: the all-black 5 x 3 image (two chunks per row). -/
theorem compress_all_black_economy_witness :
    (∃ buf, compress ⟨((5 : Nat) : Int), ((3 : Nat) : Int),
        some (List.replicate (5 * 3) 0x00)⟩ =
        ⟨9 + ⌈((3 * (1 + 2 * ⌈((5 : ℕ) : ℚ) / 4⌉₊) : ℕ) : ℚ) / 8⌉₊, some buf⟩ ∧
      buf.length = 9 + ⌈((3 * (1 + 2 * ⌈((5 : ℕ) : ℚ) / 4⌉₊) : ℕ) : ℚ) / 8⌉₊ ∧
      (∀ j, j < 3 → lbit (buf.drop 9) j = true) ∧
      (∀ k, k < 2 * (3 * ⌈((5 : ℕ) : ℚ) / 4⌉₊) →
        lbit (buf.drop 9) (3 + k) = decide (k % 2 = 0))) ∧
    compress ⟨4, 1, some [0x00, 0x00, 0x00, 0x00]⟩ =
      ⟨10, some [0xBA, 0x04, 0x00, 0x00, 0x00, 0x01, 0x00, 0x00, 0x00, 0x03]⟩ ∧
    (∀ beyond : Nat → Nat,
      uncompress ((compress ⟨4, 1, some [0x00, 0x00, 0x00, 0x00]⟩).data beyond) =
        ⟨4, 1, some [0x00, 0x00, 0x00, 0x00]⟩) :=
  compress_all_black_economy 5 3 (by decide) (by decide)

/-- Claim C10 (null input). For every width and height, `compress` of an image whose data
pointer is absent returns the empty sentinel: `size_bytes` 0 and no buffer. -/
theorem compress_null_input (width height : Int) :
    compress ⟨width, height, none⟩ = ⟨0, none⟩ := rfl

/-! ## Degenerate dimensions and the header (C11, C12) -/

theorem compress_iter_header (w h : Nat) (px hdr : List Nat) (j : Nat) (st : OutState)
    (hhdr : hdr.length = 9) (hst : ∃ pl, st.buffer = hdr ++ pl) :
    ∃ pl, (compress_iter w h px j st).buffer = hdr ++ pl := by
  obtain ⟨pl, hbuf⟩ := hst
  unfold compress_iter
  simp only [hbuf, Nat.add_assoc, resize_append_hdr _ _ _ hhdr, on_payload_append _ _ _ hhdr]
  split
  · exact ⟨_, rfl⟩
  · exact ⟨_, rfl⟩

theorem compress_header (width height : Int) (px : List Nat) (hw : width ≠ 0)
    (hh : height ≠ 0) :
    ∃ pl, (compress ⟨width, height, some px⟩).compressed_data =
      some (header_of width height ++ pl) := by
  have hhdr := header_of_length width height
  have key := foldl_range_induct
    (fun st j => compress_iter width.toNat height.toNat px j st)
    (fun _ st => ∃ pl, st.buffer = header_of width height ++ pl)
    ⟨header_of width height ++ List.replicate (bytesTaken height.toNat) 0, 0,
      List.replicate (max_row_len_bytes width.toNat) 0⟩
    ⟨_, rfl⟩ height.toNat
    (fun j s _ hP => compress_iter_header _ _ px _ j s hhdr hP)
  obtain ⟨pl, hbuf⟩ := key
  have hw0 : ¬ (height = 0 ∨ width = 0) := by omega
  unfold compress
  simp only [hw0, if_false, initial_buffer_eq, hbuf, resize_append_hdr _ _ _ hhdr]
  exact ⟨_, rfl⟩

theorem header_of_natCast (w h : Nat) (hw : w < 2147483648) (hh : h < 2147483648) :
    header_of (w : Int) (h : Int) =
      [0xBA, w % 256, w / 256 % 256, w / 65536 % 256, w / 16777216 % 256,
        h % 256, h / 256 % 256, h / 65536 % 256, h / 16777216 % 256] := by
  have e1 : ((w : Int) % 4294967296).toNat = w := by omega
  have e2 : ((h : Int) % 4294967296).toNat = h := by omega
  simp only [header_of, int_bytes, e1, e2, barch_format_id, List.cons_append, List.nil_append]

theorem uncompress_dims (image_data : CompressedImageData)
    (h : uncompress image_data ≠ ⟨0, 0, none⟩) :
    ∃ data, image_data.data = some data ∧
      (uncompress image_data).width = load_int data 1 ∧
      (uncompress image_data).height = load_int data 5 := by
  obtain ⟨size, data⟩ := image_data
  cases data with
  | none => exact absurd rfl h
  | some data =>
    refine ⟨data, rfl, ?_⟩
    unfold uncompress uncompress_run at h ⊢
    dsimp only at h ⊢
    split at h
    · exact absurd rfl h
    · split at h
      · exact absurd rfl h
      · split at h
        · exact absurd rfl h
        · rename_i h1 h2 h3
          rw [if_neg h1, if_neg h2, if_neg h3]
          split
          · rename_i r loads hr
            rw [hr] at h
            exact absurd rfl h
          · exact ⟨rfl, rfl⟩

/-- Claim C11 as stated fails: for width 0, height 3 and a present (empty) pixel buffer,
`compress` returns the 5 bytes BA 00 00 00 00, so the result has no bytes 5..8 in which a zero
could stand at the height field's offset. -/
theorem compress_degenerate_has_no_height_field :
    compress ⟨0, 3, some []⟩ = ⟨5, some [0xBA, 0, 0, 0, 0]⟩ ∧
    ¬ ∃ buf, (compress ⟨0, 3, some []⟩).compressed_data = some buf ∧ buf[0]? = some 0xBA ∧
      buf[5]? = some 0 ∧ buf[6]? = some 0 ∧ buf[7]? = some 0 ∧ buf[8]? = some 0 := by
  refine ⟨by decide, ?_⟩
  rintro ⟨buf, h, _, h5, _⟩
  have e : (compress ⟨0, 3, some []⟩).compressed_data = some [0xBA, 0, 0, 0, 0] := by decide
  rw [e] at h
  cases h
  simp at h5

/-- Claim C11, amended (degenerate dimensions). For every image with a present data pointer
and width == 0 or height == 0, `compress` returns a header-only result of `offset_height` = 5
bytes: byte 0 is the magic tag 0xBA and bytes 1..4, the width field's offset, hold an explicit
32-bit zero; there is no height field. -/
theorem compress_degenerate_dimensions (width height : Int) (pixels : List Nat)
    (h : width = 0 ∨ height = 0) :
    compress ⟨width, height, some pixels⟩ = ⟨5, some [0xBA, 0, 0, 0, 0]⟩ := by
  have h2 : height = 0 ∨ width = 0 := h.symm
  unfold compress
  simp only [h2, if_true]
  rfl

/-- Witness for C11: width 0, height 3. -/
theorem compress_degenerate_dimensions_witness :
    compress ⟨0, 3, some []⟩ = ⟨5, some [0xBA, 0, 0, 0, 0]⟩ :=
  compress_degenerate_dimensions 0 3 [] (Or.inl rfl)

/-- Claim C12 (header layout). For every image with width > 0 and height > 0 (fitting in
`int`), `compress image` has byte 0 equal to 0xBA, bytes 1..4 equal to the 32-bit little-endian
encoding of width and bytes 5..8 equal to that of height; and whenever `uncompress` returns a
non-sentinel result, its width and height are the values decoded from bytes 1..4 and 5..8 of
its input. -/
theorem compress_header_layout (width height : Nat) (pixels : List Nat)
    (hw : 0 < width) (hh : 0 < height)
    (hwi : width < 2147483648) (hhi : height < 2147483648) :
    (∃ buf, (compress ⟨(width : Int), (height : Int), some pixels⟩).compressed_data = some buf ∧
      buf.take 9 =
        [0xBA, width % 256, width / 256 % 256, width / 65536 % 256, width / 16777216 % 256,
          height % 256, height / 256 % 256, height / 65536 % 256, height / 16777216 % 256]) ∧
    (∀ image_data : CompressedImageData, uncompress image_data ≠ ⟨0, 0, none⟩ →
      ∃ data, image_data.data = some data ∧
        (uncompress image_data).width = load_int data 1 ∧
        (uncompress image_data).height = load_int data 5) := by
  refine ⟨?_, uncompress_dims⟩
  obtain ⟨pl, hc⟩ := compress_header (width : Int) (height : Int) pixels (by omega) (by omega)
  refine ⟨_, hc, ?_⟩
  rw [← header_of_natCast width height hwi hhi]
  have hl := header_of_length (width : Int) (height : Int)
  rw [← hl, List.take_left]

/-- Witness for C12: a 300 x 2 image, whose width needs two header bytes. -/
theorem compress_header_layout_witness :
    (∃ buf, (compress ⟨((300 : Nat) : Int), ((2 : Nat) : Int),
        some (List.replicate 600 0xFF)⟩).compressed_data = some buf ∧
      buf.take 9 =
        [0xBA, 300 % 256, 300 / 256 % 256, 300 / 65536 % 256, 300 / 16777216 % 256,
          2 % 256, 2 / 256 % 256, 2 / 65536 % 256, 2 / 16777216 % 256]) ∧
    (∀ image_data : CompressedImageData, uncompress image_data ≠ ⟨0, 0, none⟩ →
      ∃ data, image_data.data = some data ∧
        (uncompress image_data).width = load_int data 1 ∧
        (uncompress image_data).height = load_int data 5) :=
  compress_header_layout 300 2 (List.replicate 600 0xFF) (by decide) (by decide) (by decide)
    (by decide)

/-! ## The bit accessor (C13, C14, C15) -/

theorem read_chunk_length (data : Nat → Nat) (n : Nat) : ∀ b,
    (Bitter.read_chunk data b n).length = n := by
  induction n with
  | zero => intro b; rfl
  | succ n ih => intro b; rw [read_chunk_succ, List.length_cons, ih]

theorem testBit_read_byte (data : Nat → Nat) (b t : Nat) (ht : t < 8)
    (hd : data (b / 8) < 256) :
    (((data (b / 8) >>> (b % 8)) % 256 |||
        ((data ((b + 8) / 8) <<< (8 - b % 8)) &&& 0xFF)) % 256).testBit t =
      bit_at data (b + t) := by
  have e256 : (256 : Nat) = 2 ^ 8 := by norm_num
  rw [e256, Nat.testBit_mod_two_pow]
  simp only [ht, decide_True, Bool.true_and, Nat.testBit_or, Nat.testBit_mod_two_pow,
    Nat.testBit_and, Nat.testBit_shiftRight, Nat.testBit_shiftLeft, testBit_ff]
  unfold bit_at
  by_cases hs : b % 8 + t < 8
  · have e1 : (b + t) / 8 = b / 8 := by omega
    have e2 : (b + t) % 8 = b % 8 + t := by omega
    have e3 : ¬ (t ≥ 8 - b % 8) := by omega
    rw [e1, e2]
    simp [e3]
  · have e1 : (b + t) / 8 = (b + 8) / 8 := by omega
    have e2 : (b + t) % 8 = t - (8 - b % 8) := by omega
    have e3 : t ≥ 8 - b % 8 := by omega
    have e4 : (data (b / 8)).testBit (b % 8 + t) = false :=
      testBit_of_lt_256 _ _ hd (by omega)
    rw [e1, e2, e4]
    simp [e3]

theorem testBit_read_chunk (data : Nat → Nat) (i : Nat) (hi : i < 8) (n : Nat) : ∀ b k,
    k < n → (∀ k, k < n → data ((b + 8 * k) / 8) < 256) →
    ((Bitter.read_chunk data b n).getD k 0).testBit i = bit_at data (b + 8 * k + i) := by
  induction n with
  | zero => intro b k hk; omega
  | succ n ih =>
    intro b k hk hd
    rw [read_chunk_succ]
    cases k with
    | zero =>
      rw [List.getD_cons_zero, testBit_read_byte data b i hi (by simpa using hd 0 (by omega))]
      rfl
    | succ k =>
      rw [List.getD_cons_succ, ih (b + 8) k (by omega) (fun k2 hk2 => by
        have := hd (k2 + 1) (by omega)
        have e : b + 8 * (k2 + 1) = b + 8 + 8 * k2 := by omega
        rw [e] at this; exact this)]
      congr 1
      omega

theorem pointer_to_inside (buf : List Nat) (beyond : Nat → Nat) (i : Nat)
    (hi : i < buf.length) : pointer_to buf beyond i = buf.getD i 0 := by
  unfold pointer_to
  rw [List.getD_eq_getElem _ _ hi, List.getD_eq_getElem _ _ hi]

theorem bit_at_pointer_to (buf : List Nat) (beyond : Nat → Nat) (b : Nat)
    (hb : b / 8 < buf.length) : bit_at (pointer_to buf beyond) b = lbit buf b := by
  unfold bit_at lbit
  rw [pointer_to_inside _ _ _ hb]

/-- Claim C13 (bit accessor round trip). For every byte buffer, every bit offset `b` (aligned
or not), every `n` and every source sequence `src` of `n` bytes, provided the buffer has at
least `b / 8 + n + 1` bytes, `read_chunk (b, n)` performed after `write_chunk (b, src, n)`
returns exactly `src`. -/
theorem read_chunk_after_write_chunk (buf : List Nat) (b n : Nat) (src : List Nat)
    (beyond : Nat → Nat) (hcap : b / 8 + n + 1 ≤ buf.length)
    (hbuf : ∀ x ∈ buf, x < 256) (hlen : src.length = n) (hsrc : ∀ x ∈ src, x < 256) :
    Bitter.read_chunk (pointer_to (Bitter.write_chunk buf b src n) beyond) b n = src := by
  have hs := bytes_ok_of_forall_mem src hsrc
  have hwl := write_chunk_length n buf b src
  apply read_chunk_spec _ n b src hlen hs
  · intro k hk
    rw [pointer_to_inside _ _ _ (by rw [hwl]; omega)]
    exact bytes_ok_write_chunk n buf b src (bytes_ok_of_forall_mem buf hbuf) _
  · intro p hp
    rw [bit_at_pointer_to _ _ _ (by rw [hwl]; omega),
      lbit_write_chunk n buf b src (by omega) (fun k _ => hs k), if_pos ⟨by omega, by omega⟩,
      Nat.add_sub_cancel_left]
    rfl

/-- Witness for C13: three bytes written at bit offset 11 of an 8-byte buffer. -/
theorem read_chunk_after_write_chunk_witness :
    Bitter.read_chunk (pointer_to (Bitter.write_chunk [1, 2, 3, 4, 5, 6, 7, 8] 11
      [0xAB, 0xCD, 0xEF] 3) (fun _ => 0)) 11 3 = [0xAB, 0xCD, 0xEF] :=
  read_chunk_after_write_chunk [1, 2, 3, 4, 5, 6, 7, 8] 11 3 [0xAB, 0xCD, 0xEF] (fun _ => 0)
    (by decide) (by decide) (by decide) (by decide)

/-- Claim C14 (frame of `write_chunk`). For every byte buffer with at least `b / 8 + n + 1`
bytes, every bit offset `b` and every `n` source bytes `src`, `write_chunk (b, src, n)` keeps
the length of the buffer and leaves every bit whose index is outside `[b, b + 8 * n)`
unchanged: the low `b mod 8` bits of the first touched byte, the high bits of the last touched
byte, and the whole following byte when `b` is a multiple of 8. -/
theorem write_chunk_frame (buf : List Nat) (b : Nat) (src : List Nat)
    (hcap : b / 8 + src.length + 1 ≤ buf.length) (hsrc : ∀ x ∈ src, x < 256) :
    (Bitter.write_chunk buf b src src.length).length = buf.length ∧
    ∀ b2, ¬ (b ≤ b2 ∧ b2 < b + 8 * src.length) →
      lbit (Bitter.write_chunk buf b src src.length) b2 = lbit buf b2 := by
  refine ⟨write_chunk_length src.length buf b src, ?_⟩
  intro b2 hb2
  rw [lbit_write_chunk src.length buf b src (by omega)
    (fun k _ => bytes_ok_of_forall_mem src hsrc k), if_neg hb2]

/-- Witness for C14: three bytes written at bit offset 11 of an 8-byte buffer. -/
theorem write_chunk_frame_witness :
    (Bitter.write_chunk [1, 2, 3, 4, 5, 6, 7, 8] 11 [0xAB, 0xCD, 0xEF]
      [0xAB, 0xCD, 0xEF].length).length = [1, 2, 3, 4, 5, 6, 7, 8].length ∧
    ∀ b2, ¬ (11 ≤ b2 ∧ b2 < 11 + 8 * [0xAB, 0xCD, 0xEF].length) →
      lbit (Bitter.write_chunk [1, 2, 3, 4, 5, 6, 7, 8] 11 [0xAB, 0xCD, 0xEF]
        [0xAB, 0xCD, 0xEF].length) b2 = lbit [1, 2, 3, 4, 5, 6, 7, 8] b2 :=
  write_chunk_frame [1, 2, 3, 4, 5, 6, 7, 8] 11 [0xAB, 0xCD, 0xEF] (by decide) (by decide)

/-- Claim C15 (chunk and single-bit accessors agree on bit order). For every byte buffer with
at least `b / 8 + n + 1` bytes, every bit offset `b`, every `k < n` and every `i < 8`, bit `i`
(counted from the least significant) of byte `k` returned by `read_chunk (b, n)` equals
`read (b + 8 * k + i)`, and `read x` is bit `x mod 8` of byte `x / 8`. -/
theorem read_chunk_agrees_with_read (buf : List Nat) (b n k i : Nat) (beyond : Nat → Nat)
    (hcap : b / 8 + n + 1 ≤ buf.length) (hbuf : ∀ x ∈ buf, x < 256)
    (hk : k < n) (hi : i < 8) :
    (Bitter.read_chunk (pointer_to buf beyond) b n).length = n ∧
    ((Bitter.read_chunk (pointer_to buf beyond) b n).getD k 0).testBit i =
      Bitter.read (pointer_to buf beyond) (b + 8 * k + i) ∧
    ∀ x, Bitter.read (pointer_to buf beyond) x = (pointer_to buf beyond (x / 8)).testBit (x % 8) := by
  refine ⟨read_chunk_length _ n b, ?_, fun x => read_eq_bit_at _ x⟩
  rw [read_eq_bit_at]
  apply testBit_read_chunk _ i hi n b k hk
  intro k2 hk2
  rw [pointer_to_inside _ _ _ (by omega)]
  exact bytes_ok_of_forall_mem buf hbuf _

/-- Witness for C15: bit 5 of the second byte read at bit offset 11 of an 8-byte buffer. -/
theorem read_chunk_agrees_with_read_witness :
    (Bitter.read_chunk (pointer_to [1, 2, 3, 4, 5, 6, 7, 8] (fun _ => 0)) 11 3).length = 3 ∧
    ((Bitter.read_chunk (pointer_to [1, 2, 3, 4, 5, 6, 7, 8] (fun _ => 0)) 11 3).getD 1
        0).testBit 5 =
      Bitter.read (pointer_to [1, 2, 3, 4, 5, 6, 7, 8] (fun _ => 0)) (11 + 8 * 1 + 5) ∧
    ∀ x, Bitter.read (pointer_to [1, 2, 3, 4, 5, 6, 7, 8] (fun _ => 0)) x =
      (pointer_to [1, 2, 3, 4, 5, 6, 7, 8] (fun _ => 0) (x / 8)).testBit (x % 8) :=
  read_chunk_agrees_with_read [1, 2, 3, 4, 5, 6, 7, 8] 11 3 1 5 (fun _ => 0) (by decide)
    (by decide) (by decide) (by decide)

/-! ## Capacity of the scratch buffer and of the output vector (C16, C17) -/

theorem max_row_len_bytes_rational (w : Nat) (hw : 0 < w) :
    max_row_len_bytes w =
      ⌈((w : ℕ) : ℚ) * ((8 * w + 2 * ⌈((w : ℕ) : ℚ) / 4⌉₊ : ℕ) : ℚ) / ((8 * w : ℕ) : ℚ)⌉₊ := by
  rw [max_row_len_bytes_eq w hw, bytesTaken_eq, ceil_div_four, ← ceil_div_eight]
  congr 1
  have hw0 : ((w : ℕ) : ℚ) ≠ 0 := by exact_mod_cast (Nat.pos_iff_ne_zero.mp hw)
  push_cast
  field_simp
  ring

theorem compress_eq_of_state (w h : Nat) (px : List Nat) (hw : 0 < w) (hh : 0 < h) :
    compress ⟨(w : Int), (h : Int), some px⟩ =
      ⟨(resize (compress_state_before w h px h).buffer
          (offset_data + bytesTaken (h + (compress_state_before w h px h).buffer_bits))).length,
        some (resize (compress_state_before w h px h).buffer
          (offset_data + bytesTaken (h + (compress_state_before w h px h).buffer_bits)))⟩ := by
  have hw0 : ¬ ((h : Int) = 0 ∨ (w : Int) = 0) := by omega
  unfold compress compress_state_before compress_initial
  simp only [hw0, if_false, Int.toNat_ofNat]

/-- Claim C16, evaluated at a failing input. For width 13 the scratch capacity is
ceil(13 * (8 * 13 + 2 * 4) / (8 * 13)) = 14 bytes. Encoding a row of 13 pixels 0x01 (four
literal chunks, 112 bits) starts from the fresh scratch buffer of 14 bytes and touches byte
offset 14 of it: the last `write_chunk` ends at bit 112 and its second read-modify-write
addresses byte 112 / 8. -/
theorem compress_scratch_access_at_capacity :
    max_row_len_bytes 13 = 14 ∧
    ⌈((13 : ℕ) : ℚ) * ((8 * 13 + 2 * ⌈((13 : ℕ) : ℚ) / 4⌉₊ : ℕ) : ℚ) / ((8 * 13 : ℕ) : ℚ)⌉₊
      = 14 ∧
    (compress_state_before 13 1 (List.replicate 13 1) 0).row_buffer.length = 14 ∧
    14 ∈ compress_row_accesses 13 ((List.replicate 13 1).drop (13 * 0)) 13 0
      ⟨(compress_state_before 13 1 (List.replicate 13 1) 0).row_buffer, 0, true⟩ := by
  refine ⟨by decide, ?_, by decide, by decide⟩
  rw [← max_row_len_bytes_rational 13 (by decide)]
  decide

/-- Claim C17, evaluated at a failing input. For the 1 x 8 image whose first row is the
literal pixel 0x55, iteration 0 resizes the output vector to 9 + 1 + 2 = 12 bytes and then
touches byte offset 12 of it: `write_chunk` copies 2 bytes to the aligned bit 8 of the payload
and its last read-modify-write addresses payload byte 3. -/
theorem compress_output_access_at_size :
    compress_iter_size 1 8
      (compress_state_before 1 8 [0x55, 255, 255, 255, 255, 255, 255, 255] 0) = 12 ∧
    (compress_iter 1 8 [0x55, 255, 255, 255, 255, 255, 255, 255] 0
      (compress_state_before 1 8 [0x55, 255, 255, 255, 255, 255, 255, 255] 0)).buffer.length
        = 12 ∧
    12 ∈ compress_iter_accesses 1 8 [0x55, 255, 255, 255, 255, 255, 255, 255] 0
      (compress_state_before 1 8 [0x55, 255, 255, 255, 255, 255, 255, 255] 0) := by
  decide

/-! ## The reference decoder (C18) -/

theorem testBit_bits_value (bits : Nat → Bool) (k : Nat) : ∀ p i,
    (bits_value bits p k).testBit i = (decide (i < k) && bits (p + i)) := by
  induction k with
  | zero => intro p i; simp [bits_value]
  | succ k ih =>
    intro p i
    unfold bits_value
    cases i with
    | zero =>
      rw [Nat.testBit_zero]
      have e : ((if bits p = true then 1 else 0) + 2 * bits_value bits (p + 1) k) % 2 =
          (if bits p = true then 1 else 0) := by
        split <;> omega
      rw [e]
      by_cases hb : bits p = true
      · simp [hb]
      · simp [hb]
    | succ i =>
      rw [Nat.testBit_succ]
      have e : ((if bits p = true then 1 else 0) + 2 * bits_value bits (p + 1) k) / 2 =
          bits_value bits (p + 1) k := by
        split <;> omega
      rw [e, ih (p + 1) i]
      have e2 : p + 1 + i = p + (i + 1) := by omega
      rw [e2]
      congr 1
      apply decide_eq_decide.mpr
      omega

theorem bits_value_lt (bits : Nat → Bool) (k : Nat) : ∀ p, bits_value bits p k < 2 ^ k := by
  induction k with
  | zero => intro p; simp [bits_value]
  | succ k ih =>
    intro p
    unfold bits_value
    have := ih (p + 1)
    rw [Nat.pow_succ]
    split <;> omega

theorem ref_chunk_length (bits : Nat → Bool) (p len : Nat) :
    (ref_chunk bits p len).1.length = len := by
  unfold ref_chunk
  split
  · simp
  · split <;> simp

theorem ref_chunk_cursor (bits : Nat → Bool) (p len : Nat) :
    p < (ref_chunk bits p len).2 := by
  unfold ref_chunk
  split
  · simp
  · split
    · simp
    · simp only; omega

theorem ref_row_upto_succ (bits : Nat → Bool) (w p c : Nat) :
    ref_row_upto bits w p (c + 1) =
      ((ref_row_upto bits w p c).1 ++
          (ref_chunk bits (ref_row_upto bits w p c).2 (min 4 (w - 4 * c))).1,
        (ref_chunk bits (ref_row_upto bits w p c).2 (min 4 (w - 4 * c))).2) := rfl

theorem ref_row_upto_length (bits : Nat → Bool) (w p : Nat) : ∀ c,
    (ref_row_upto bits w p c).1.length = min (4 * c) w := by
  intro c
  induction c with
  | zero => simp [ref_row_upto]
  | succ c ih =>
    rw [ref_row_upto_succ]
    simp only [List.length_append, ih, ref_chunk_length]
    omega

theorem ref_row_upto_cursor_mono (bits : Nat → Bool) (w p : Nat) : ∀ c n, c ≤ n →
    (ref_row_upto bits w p c).2 ≤ (ref_row_upto bits w p n).2 := by
  intro c n hn
  induction n with
  | zero =>
    have : c = 0 := by omega
    subst this; exact Nat.le_refl _
  | succ n ih =>
    by_cases h : c = n + 1
    · subst h; exact Nat.le_refl _
    · have h1 := ih (by omega)
      have h2 := ref_chunk_cursor bits (ref_row_upto bits w p n).2 (min 4 (w - 4 * n))
      rw [ref_row_upto_succ]
      simp only
      omega

theorem ref_row_length (bits : Nat → Bool) (w p : Nat) : (ref_row bits w p).1.length = w := by
  unfold ref_row
  rw [ref_row_upto_length]
  omega

theorem ref_row_cursor (bits : Nat → Bool) (w p : Nat) : p ≤ (ref_row bits w p).2 := by
  unfold ref_row
  exact ref_row_upto_cursor_mono bits w p 0 _ (Nat.zero_le _)

theorem ref_image_upto_succ (bits : Nat → Bool) (w h j : Nat) :
    ref_image_upto bits w h (j + 1) =
      if !bits j then
        ((ref_image_upto bits w h j).1 ++ List.replicate w 0xFF, (ref_image_upto bits w h j).2)
      else
        ((ref_image_upto bits w h j).1 ++ (ref_row bits w (ref_image_upto bits w h j).2).1,
          (ref_row bits w (ref_image_upto bits w h j).2).2) := rfl

theorem ref_image_upto_length (bits : Nat → Bool) (w h : Nat) : ∀ j,
    (ref_image_upto bits w h j).1.length = w * j := by
  intro j
  induction j with
  | zero => simp [ref_image_upto]
  | succ j ih =>
    rw [ref_image_upto_succ]
    split
    · simp only [List.length_append, ih, List.length_replicate]; ring
    · simp only [List.length_append, ih, ref_row_length]; ring

theorem ref_image_upto_cursor_mono (bits : Nat → Bool) (w h : Nat) : ∀ j n, j ≤ n →
    (ref_image_upto bits w h j).2 ≤ (ref_image_upto bits w h n).2 := by
  intro j n hn
  induction n with
  | zero =>
    have : j = 0 := by omega
    subst this; exact Nat.le_refl _
  | succ n ih =>
    by_cases hj : j = n + 1
    · subst hj; exact Nat.le_refl _
    · have h1 := ih (by omega)
      rw [ref_image_upto_succ]
      split
      · exact h1
      · have h2 := ref_row_cursor bits w (ref_image_upto bits w h n).2
        simp only
        omega

theorem store_take_append (buf A vals : List Nat) (off : Nat)
    (hpre : buf.take off = A) (hA : A.length = off) :
    (store buf off vals).take (off + vals.length) = A ++ vals := by
  unfold store
  rw [hpre, List.take_left' (by rw [List.length_append, hA])]

theorem uncompress_chunk_ref (size w : Nat) (bitsfn : Nat → Nat) (row_off c : Nat)
    (st : DecState) (plen : Nat)
    (hsize : offset_data + plen ≤ size)
    (hbytes : ∀ k, k < plen → bitsfn k < 256)
    (hcover : (ref_chunk (bit_at bitsfn) st.payload_pos (min w (4 * c + 4) - 4 * c)).2
      ≤ 8 * plen) :
    ∃ st2, uncompress_chunk size w bitsfn row_off (4 * c) st = .ok st2 ∧
      st2.raw_data = store st.raw_data (row_off + 4 * c)
        (ref_chunk (bit_at bitsfn) st.payload_pos (min w (4 * c + 4) - 4 * c)).1 ∧
      st2.payload_pos =
        (ref_chunk (bit_at bitsfn) st.payload_pos (min w (4 * c + 4) - 4 * c)).2 := by
  unfold uncompress_chunk
  simp only [chunk_size_bytes, CHAR_BIT, read_eq_bit_at]
  cases h0 : bit_at bitsfn st.payload_pos
  · simp only [ref_chunk, h0, Bool.not_false, if_true] at hcover ⊢
    have hc1 : ¬ size < offset_data + st.payload_pos / 8 := by omega
    rw [if_neg hc1]
    exact ⟨_, rfl, rfl, rfl⟩
  · cases h1 : bit_at bitsfn (st.payload_pos + 1)
    · simp only [ref_chunk, h0, h1, Bool.not_true, Bool.not_false, Bool.false_eq_true, if_false,
        if_true] at hcover ⊢
      have hc1 : ¬ size < offset_data + st.payload_pos / 8 := by omega
      have hc2 : ¬ size < offset_data + (st.payload_pos + 1) / 8 := by omega
      rw [if_neg hc1, if_neg hc2]
      exact ⟨_, rfl, rfl, rfl⟩
    · simp only [ref_chunk, h0, h1, Bool.not_true, Bool.false_eq_true, if_false] at hcover ⊢
      have hc1 : ¬ size < offset_data + st.payload_pos / 8 := by omega
      have hc2 : ¬ size < offset_data + (st.payload_pos + 1) / 8 := by omega
      have hc3 : ¬ size < offset_data +
          (st.payload_pos + 1 + 1 + (min w (4 * c + 4) - 4 * c) - 1) / 8 := by omega
      rw [if_neg hc1, if_neg hc2, if_neg hc3]
      refine ⟨_, rfl, ?_, by dsimp only; omega⟩
      dsimp only
      congr 1
      apply read_chunk_spec bitsfn _ _ _ (by simp)
      · intro k
        rw [List.getD_eq_getElem?_getD, List.getElem?_map]
        cases hk : (List.range (min w (4 * c + 4) - 4 * c))[k]? with
        | none => simp
        | some v =>
          simp only [Option.map_some', Option.getD_some]
          exact bits_value_lt _ 8 _
      · intro k hk
        apply hbytes
        omega
      · intro p hp
        rw [List.getD_eq_getElem _ _ (by simp; omega)]
        simp only [List.getElem_map, List.getElem_range]
        rw [testBit_bits_value]
        have h8 : p % 8 < 8 := Nat.mod_lt _ (by norm_num)
        simp only [h8, decide_True, Bool.true_and]
        congr 1
        omega

theorem uncompress_row_ref (size w N : Nat) (bitsfn : Nat → Nat) (row_off : Nat)
    (st : DecState) (plen : Nat) (A : List Nat)
    (hsize : offset_data + plen ≤ size)
    (hbytes : ∀ k, k < plen → bitsfn k < 256)
    (hN : st.raw_data.length = N) (hoff : row_off + w ≤ N)
    (hpre : st.raw_data.take row_off = A) (hA : A.length = row_off)
    (hcover : (ref_row (bit_at bitsfn) w st.payload_pos).2 ≤ 8 * plen) :
    ∃ st2, uncompress_row size w bitsfn row_off w 0 st = .ok st2 ∧
      st2.raw_data.length = N ∧
      st2.raw_data.take (row_off + w) = A ++ (ref_row (bit_at bitsfn) w st.payload_pos).1 ∧
      st2.payload_pos = (ref_row (bit_at bitsfn) w st.payload_pos).2 := by
  unfold ref_row at hcover ⊢
  have key := uncompress_row_induct size w bitsfn row_off
    (fun c s => s.raw_data.length = N ∧
      s.raw_data.take (row_off + min (4 * c) w) =
        A ++ (ref_row_upto (bit_at bitsfn) w st.payload_pos c).1 ∧
      s.payload_pos = (ref_row_upto (bit_at bitsfn) w st.payload_pos c).2)
    (by
      intro c s hc ⟨h1, h2, h3⟩
      have hmono := ref_row_upto_cursor_mono (bit_at bitsfn) w st.payload_pos (c + 1)
        ((w + 3) / 4) (by omega)
      have elen : min w (4 * c + 4) - 4 * c = min 4 (w - 4 * c) := by omega
      rw [ref_row_upto_succ] at hmono
      simp only at hmono
      obtain ⟨s2, e2, r2, p2⟩ := uncompress_chunk_ref size w bitsfn row_off c s plen hsize hbytes
        (by rw [h3, elen]; omega)
      rw [h3, elen] at r2 p2
      have hmin : min (4 * c) w = 4 * c := by omega
      rw [hmin] at h2
      have hcl := ref_chunk_length (bit_at bitsfn)
        (ref_row_upto (bit_at bitsfn) w st.payload_pos c).2 (min 4 (w - 4 * c))
      refine ⟨s2, e2, ?_⟩
      dsimp only
      refine ⟨?_, ?_, ?_⟩
      · rw [r2, store_length _ _ _ (by rw [hcl, h1]; omega), h1]
      · have hmin2 : min (4 * (c + 1)) w = 4 * c + min 4 (w - 4 * c) := by omega
        rw [hmin2, ← Nat.add_assoc, r2, ref_row_upto_succ]
        dsimp only
        rw [← List.append_assoc]
        have := store_take_append s.raw_data _
          (ref_chunk (bit_at bitsfn) (ref_row_upto (bit_at bitsfn) w st.payload_pos c).2
            (min 4 (w - 4 * c))).1 (row_off + 4 * c) h2
          (by rw [List.length_append, hA, ref_row_upto_length]; omega)
        rw [hcl] at this
        exact this
      · rw [p2, ref_row_upto_succ])
    w 0 st (by omega) (by omega)
    ⟨hN, by simpa [ref_row_upto] using hpre, by simp [ref_row_upto]⟩
  simp only [Nat.mul_zero] at key
  obtain ⟨st2, e2, g1, g2, g3⟩ := key
  have hmin : min (4 * ((w + 3) / 4)) w = w := by omega
  rw [hmin] at g2
  exact ⟨st2, e2, g1, g2, g3⟩

theorem uncompress_iter_ref (size w h : Nat) (bitsfn : Nat → Nat) (j : Nat) (st : DecState)
    (plen : Nat) (hj : j < h)
    (hsize : offset_data + plen ≤ size)
    (hbytes : ∀ k, k < plen → bitsfn k < 256)
    (hcover : (ref_image_upto (bit_at bitsfn) w h h).2 ≤ 8 * plen)
    (hinv : st.raw_data.length = w * h ∧
      st.raw_data.take (w * j) = (ref_image_upto (bit_at bitsfn) w h j).1 ∧
      st.payload_pos = (ref_image_upto (bit_at bitsfn) w h j).2) :
    ∃ st2, uncompress_iter size w bitsfn j st = .ok st2 ∧
      st2.raw_data.length = w * h ∧
      st2.raw_data.take (w * (j + 1)) = (ref_image_upto (bit_at bitsfn) w h (j + 1)).1 ∧
      st2.payload_pos = (ref_image_upto (bit_at bitsfn) w h (j + 1)).2 := by
  obtain ⟨h1, h2, h3⟩ := hinv
  have hwj : w * (j + 1) ≤ w * h := Nat.mul_le_mul_left w (by omega)
  rw [Nat.mul_add, Nat.mul_one] at hwj
  have hmono := ref_image_upto_cursor_mono (bit_at bitsfn) w h (j + 1) h (by omega)
  have hlenj := ref_image_upto_length (bit_at bitsfn) w h j
  rw [ref_image_upto_succ] at hmono ⊢
  unfold uncompress_iter
  simp only [read_eq_bit_at]
  cases hb : bit_at bitsfn j
  · simp only [Bool.not_false, if_true] at hmono ⊢
    refine ⟨_, rfl, ?_, ?_, h3⟩
    · dsimp only
      rw [store_length _ _ _ (by simp; omega), h1]
    · dsimp only
      rw [Nat.mul_add, Nat.mul_one]
      have := store_take_append st.raw_data _ (List.replicate w 0xFF) (w * j) h2 hlenj
      rw [List.length_replicate] at this
      exact this
  · simp only [hb, Bool.not_true, Bool.false_eq_true, if_false] at hmono ⊢
    obtain ⟨st2, e2, g1, g2, g3⟩ := uncompress_row_ref size w (w * h) bitsfn (w * j)
      ⟨st.raw_data, st.payload_pos, st.loads ++ [offset_data + j / CHAR_BIT]⟩ plen
      (ref_image_upto (bit_at bitsfn) w h j).1 hsize hbytes h1 hwj h2 hlenj
      (by dsimp only; rw [h3]; omega)
    dsimp only at g2 g3
    rw [h3] at g2 g3
    refine ⟨st2, e2, g1, ?_, g3⟩
    rw [Nat.mul_add, Nat.mul_one]
    exact g2

theorem uncompress_ref (size : Nat) (data : Nat → Nat) (w h : Nat)
    (hmagic : data 0 = barch_format_id)
    (hwid : load_int data offset_width = (w : Int))
    (hhei : load_int data offset_height = (h : Int))
    (hh : 0 < h)
    (hbytes : ∀ i, i < size → data i < 256)
    (hcover : (ref_decode (bit_at (fun k => data (offset_data + k))) w h).2
      ≤ 8 * (size - offset_data)) :
    uncompress ⟨size, some data⟩ =
      ⟨(w : Int), (h : Int),
        some (ref_decode (bit_at (fun k => data (offset_data + k))) w h).1⟩ := by
  have hw31 : w < 2147483648 := by
    have := (load_int_range data offset_width).2
    rw [hwid] at this
    omega
  have hh31 : h < 2147483648 := by
    have := (load_int_range data offset_height).2
    rw [hhei] at this
    omega
  have hmul : w * h < 18446744073709551616 := by
    have : w * h < 2147483648 * 2147483648 := Nat.mul_lt_mul'' hw31 hh31
    omega
  unfold ref_decode at hcover ⊢
  have hstart := ref_image_upto_cursor_mono (bit_at (fun k => data (offset_data + k))) w h 0 h
    (Nat.zero_le _)
  have hs0 : (ref_image_upto (bit_at (fun k => data (offset_data + k))) w h 0).2 = h := rfl
  rw [hs0] at hstart
  have hod : offset_data = 9 := rfl
  have key := foldl_range_induct
    (uncompress_step size w (fun k => data (offset_data + k)))
    (fun j acc => ∃ st, acc = .ok st ∧ st.raw_data.length = w * h ∧
      st.raw_data.take (w * j) =
        (ref_image_upto (bit_at (fun k => data (offset_data + k))) w h j).1 ∧
      st.payload_pos = (ref_image_upto (bit_at (fun k => data (offset_data + k))) w h j).2)
    (Except.ok (DecState.mk (List.replicate (w * h) 0) h [0, 1, 2, 3, 4, 5, 6, 7, 8]))
    ⟨_, rfl, by simp, by simp [ref_image_upto], rfl⟩
    h (by
      intro j s hj ⟨st, hs, hinv⟩
      subst hs
      show ∃ st2, uncompress_iter size w _ j st = .ok st2 ∧ _
      exact uncompress_iter_ref size w h _ j st (size - offset_data) hj (by omega)
        (fun k hk => hbytes _ (by omega)) hcover hinv)
  obtain ⟨st, hst, g1, g2, _⟩ := key
  have hc0 : ¬ size < offset_data := by omega
  have hc1 : ¬ size < offset_data + bytesTaken h := by rw [bytesTaken_eq]; omega
  unfold uncompress uncompress_run
  simp only [hmagic, bne_self_eq_false, Bool.false_eq_true, if_false, hc0, hwid, hhei,
    to_size_t_natCast w hw31, to_size_t_natCast h hh31, hc1, Nat.mod_eq_of_lt hmul,
    Int.toNat_ofNat, hst]
  have hlen := ref_image_upto_length (bit_at (fun k => data (offset_data + k))) w h h
  have : st.raw_data = (ref_image_upto (bit_at (fun k => data (offset_data + k))) w h h).1 := by
    have e1 := List.take_of_length_le (Nat.le_of_eq g1)
    rw [← e1]; exact g2
  rw [this]

/-- Claim C18 (decoder semantics on any accepted stream). For every input buffer with magic
0xBA, width > 0, height > 0 and a length that covers every bit the decoder consumes (the final
cursor of the reference decoder lies inside the payload), `uncompress` returns the image
defined by the reference decoder `ref_decode` over the payload bit sequence, with a cursor
starting at `height`: a row whose presence bit is 0 is `width` bytes of 0xFF and leaves the
cursor unchanged; in a row whose presence bit is 1 each chunk of `min 4 (width - i)` pixels is
0xFF-filled for code 0 (cursor + 1), 0x00-filled for code 1,0 (cursor + 2), and for code 1,1 is
the next `8 * len` bits taken LSB-first (cursor + 2 + 8 * len). -/
theorem uncompress_reference_semantics (size_bytes : Nat) (data : Nat → Nat)
    (width height : Nat)
    (hmagic : data 0 = 0xBA)
    (hwidth : load_int data 1 = (width : Int)) (hheight : load_int data 5 = (height : Int))
    (_hw : 0 < width) (hh : 0 < height)
    (hbytes : ∀ i, i < size_bytes → data i < 256)
    (hcover : (ref_decode (bit_at (fun k => data (9 + k))) width height).2
      ≤ 8 * (size_bytes - 9)) :
    uncompress ⟨size_bytes, some data⟩ =
      ⟨(width : Int), (height : Int),
        some (ref_decode (bit_at (fun k => data (9 + k))) width height).1⟩ :=
  uncompress_ref size_bytes data width height hmagic hwidth hheight hh hbytes hcover

/-- Witness for C18: a 16-byte stream of a 5 x 3 image with a white row, a row with a black
and a literal chunk, and a row with two literal chunks. -/
theorem uncompress_reference_semantics_witness :
    uncompress ⟨16, some (pointer_to
        [186, 5, 0, 0, 0, 3, 0, 0, 0, 237, 131, 3, 4, 6, 8, 0] (fun _ => 0))⟩ =
      ⟨((5 : Nat) : Int), ((3 : Nat) : Int),
        some (ref_decode (bit_at (fun k => pointer_to
          [186, 5, 0, 0, 0, 3, 0, 0, 0, 237, 131, 3, 4, 6, 8, 0] (fun _ => 0) (9 + k))) 5 3).1⟩ :=
  uncompress_reference_semantics 16
    (pointer_to [186, 5, 0, 0, 0, 3, 0, 0, 0, 237, 131, 3, 4, 6, 8, 0] (fun _ => 0)) 5 3
    (by decide) (by decide) (by decide) (by decide) (by decide)
    (by
      intro i hi
      have h : ∀ j : Fin 16,
          pointer_to [186, 5, 0, 0, 0, 3, 0, 0, 0, 237, 131, 3, 4, 6, 8, 0] (fun _ => 0) j.1
            < 256 := by decide
      exact h ⟨i, hi⟩)
    (by decide)

/-! ## Padding and the worst case (C19, C20) -/

theorem span_code_length_literal (span : List Nat) (h : span_literal span) :
    (span_code span).length = 2 + 8 * span.length := by
  rw [span_code_length]
  unfold chunk_cost
  rw [if_neg h.1, if_neg h.2]

theorem span_code_length_not_literal (span : List Nat) (hlen : 0 < span.length)
    (h : ¬ span_literal span) : (span_code span).length + 8 ≤ 2 + 8 * span.length := by
  rw [span_code_length]
  unfold chunk_cost
  by_cases h1 : span.all (fun p => p == 0xFF) = true
  · rw [if_pos h1]; omega
  · by_cases h2 : span.all (fun p => p == 0) = true
    · rw [if_neg h1, if_pos h2]; omega
    · exact absurd ⟨h1, h2⟩ h

theorem span_of_length_row (w : Nat) (row : List Nat) (c : Nat) (hrow : row.length = w) :
    (span_of row c).length = min 4 (w - 4 * c) := by
  unfold span_of
  rw [List.length_take, List.length_drop, hrow]

theorem row_code_upto_bounds (w : Nat) (row : List Nat) (hrow : row.length = w) :
    ∀ c, c ≤ (w + 3) / 4 →
      (row_code_upto row c).length ≤ 8 * min (4 * c) w + 2 * c ∧
      ((∀ k, k < c → span_literal (span_of row k)) →
        (row_code_upto row c).length = 8 * min (4 * c) w + 2 * c) ∧
      ((∃ k, k < c ∧ ¬ span_literal (span_of row k)) →
        (row_code_upto row c).length + 8 ≤ 8 * min (4 * c) w + 2 * c) := by
  intro c
  induction c with
  | zero =>
    intro _
    refine ⟨by simp [row_code_upto], fun _ => by simp [row_code_upto], ?_⟩
    rintro ⟨k, hk, _⟩
    omega
  | succ c ih =>
    intro hc
    obtain ⟨i1, i2, i3⟩ := ih (by omega)
    have hsl := span_of_length_row w row c hrow
    have hle := span_code_length_le (span_of row c)
    rw [row_code_upto_succ, List.length_append]
    refine ⟨by omega, ?_, ?_⟩
    · intro hall
      have e1 := i2 (fun k hk => hall k (by omega))
      have e2 := span_code_length_literal _ (hall c (by omega))
      omega
    · rintro ⟨k, hk, hnl⟩
      by_cases hkc : k = c
      · subst hkc
        have e2 := span_code_length_not_literal _ (by omega) hnl
        omega
      · have e1 := i3 ⟨k, by omega, hnl⟩
        omega

theorem row_code_bounds (w : Nat) (row : List Nat) (hrow : row.length = w) :
    (row_code row).length ≤ 8 * w + 2 * ((w + 3) / 4) ∧
    ((∀ k, k < (w + 3) / 4 → span_literal (span_of row k)) →
      (row_code row).length = 8 * w + 2 * ((w + 3) / 4)) ∧
    ((∃ k, k < (w + 3) / 4 ∧ ¬ span_literal (span_of row k)) →
      (row_code row).length + 8 ≤ 8 * w + 2 * ((w + 3) / 4)) := by
  have h := row_code_upto_bounds w row hrow ((w + 3) / 4) (Nat.le_refl _)
  have hmin : min (4 * ((w + 3) / 4)) w = w := by omega
  unfold row_code
  rw [hrow]
  rw [hmin] at h
  exact h

theorem span_of_white_row (row : List Nat) (c : Nat) (h : row_white row = true) :
    (span_of row c).all (fun p => p == 0xFF) = true := by
  unfold row_white at h
  rw [List.all_eq_true] at h ⊢
  intro x hx
  unfold span_of at hx
  exact h x (List.mem_of_mem_drop (List.mem_of_mem_take hx))

theorem row_white_of_spans (w : Nat) (row : List Nat) (hw : 0 < w) (hrow : row.length = w)
    (h : ∀ k, k < (w + 3) / 4 → span_literal (span_of row k)) : row_white row = false := by
  by_contra hne
  have hwt : row_white row = true := by simpa using hne
  exact (h 0 (by omega)).1 (span_of_white_row row 0 hwt)

theorem payload_code_upto_bounds (w h : Nat) (px : List Nat) (hw : 0 < w)
    (hlen : px.length = w * h) : ∀ j, j ≤ h →
      (payload_code_upto w px j).length ≤ j * (8 * w + 2 * ((w + 3) / 4)) ∧
      ((∀ r, r < j → ∀ k, k < (w + 3) / 4 → span_literal (span_of (row_of w px r) k)) →
        (payload_code_upto w px j).length = j * (8 * w + 2 * ((w + 3) / 4))) ∧
      ((∃ r, r < j ∧ ∃ k, k < (w + 3) / 4 ∧ ¬ span_literal (span_of (row_of w px r) k)) →
        (payload_code_upto w px j).length + 8 ≤ j * (8 * w + 2 * ((w + 3) / 4))) := by
  intro j
  induction j with
  | zero =>
    intro _
    refine ⟨by simp [payload_code_upto], fun _ => by simp [payload_code_upto], ?_⟩
    rintro ⟨r, hr, _⟩
    omega
  | succ j ih =>
    intro hj
    obtain ⟨i1, i2, i3⟩ := ih (by omega)
    have hrl := row_of_length w h px j (by omega) hlen
    obtain ⟨b1, b2, b3⟩ := row_code_bounds w (row_of w px j) hrl
    rw [payload_code_upto_succ, List.length_append, Nat.succ_mul]
    by_cases hwhite : row_white (row_of w px j) = true
    · rw [if_pos hwhite]
      simp only [List.length_nil, Nat.add_zero]
      refine ⟨by omega, ?_, ?_⟩
      · intro hall
        have := row_white_of_spans w _ hw hrl (hall j (by omega))
        rw [hwhite] at this
        exact absurd this (by simp)
      · intro _
        omega
    · rw [if_neg hwhite]
      refine ⟨by omega, ?_, ?_⟩
      · intro hall
        have e1 := i2 (fun r hr => hall r (by omega))
        have e2 := b2 (hall j (by omega))
        omega
      · rintro ⟨r, hr, k, hk, hnl⟩
        by_cases hrj : r = j
        · subst hrj
          have e2 := b3 ⟨k, hk, hnl⟩
          omega
        · have e1 := i3 ⟨r, by omega, k, hk, hnl⟩
          omega

theorem uncompress_same_bits (w h : Nat) (px pl pl2 : List Nat) (beyond : Nat → Nat)
    (hw31 : w < 2147483648) (hh31 : h < 2147483648)
    (hlen : px.length = w * h) (hpx : bytes_ok px)
    (hpl2 : pl2.length = pl.length) (hok2 : bytes_ok pl2)
    (hcap : h + (payload_code_upto w px h).length ≤ 8 * pl.length)
    (hpres : ∀ k, k < h → lbit pl k = !row_white (row_of w px k))
    (hcode : bits_match (lbit pl) h (payload_code_upto w px h))
    (hsame : ∀ b, b < h + (payload_code_upto w px h).length → lbit pl2 b = lbit pl b) :
    uncompress ⟨(header_of w h ++ pl2).length, some (pointer_to (header_of w h ++ pl2) beyond)⟩ =
      ⟨(w : Int), (h : Int), some px⟩ := by
  have hhdr := header_of_length w h
  apply uncompress_spec _ _ w h px pl2.length hw31 hh31 hlen hpx
  · exact pointer_to_magic _ _ _ _
  · exact load_int_header_width _ _ _ _ (by omega) (by omega)
  · exact load_int_header_height _ _ _ _ (by omega) (by omega)
  · rw [List.length_append, hhdr]; rfl
  · rw [hpl2]; exact hcap
  · intro k hk
    rw [pointer_to_payload _ _ _ _ hhdr hk]
    exact hok2 k
  · intro k hk
    rw [bit_at_pointer_payload _ _ _ _ hhdr (by omega), hsame k (by omega)]
    exact hpres k hk
  · intro k hk
    rw [bit_at_pointer_payload _ _ _ _ hhdr (by omega), hsame _ (by omega)]
    exact hcode k hk

/-- Claim C19 as stated fails: for the 1 x 2 image with pixels 0x55, 0x00 the payload holds
`height + totalPayloadBits` = 14 meaningful bits, and payload bit 14 of `compress image`, an
unused bit of the final byte, is 1: it is a bit of the literal 0x55 of row 0 that stayed in the
scratch buffer and was copied with the rounded-up row 1. -/
theorem compress_padding_bit_set :
    2 + totalPayloadBits 1 2 [0x55, 0x00] = 14 ∧
    compress ⟨1, 2, some [0x55, 0x00]⟩ =
      ⟨11, some [0xBA, 1, 0, 0, 0, 2, 0, 0, 0, 0x5F, 0x55]⟩ ∧
    ¬ ∀ b, 2 + totalPayloadBits 1 2 [0x55, 0x00] ≤ b →
      lbit ([0xBA, 1, 0, 0, 0, 2, 0, 0, 0, 0x5F, 0x55].drop 9) b = false := by
  refine ⟨by decide, by decide, ?_⟩
  intro h
  have h14 := h 14 (by decide)
  revert h14
  decide

/-- Claim C19, amended (padding). For every image with width > 0 and height > 0, the payload
of `compress image` has fewer than 8 bits at an index of at least
`height + totalPayloadBits`, the unused high bits of the final output byte. These bits are not
promised to be 0, and `uncompress` does not depend on them: every buffer of the same length
with the same header whose payload agrees with `compress image` on the bits below
`height + totalPayloadBits` decodes to the same image. -/
theorem compress_padding_unread (width height : Nat) (pixels : List Nat)
    (hw : 0 < width) (hh : 0 < height)
    (hwi : width < 2147483648) (hhi : height < 2147483648)
    (hlen : pixels.length = width * height) (hbytes : ∀ p ∈ pixels, p < 256) :
    ∃ buf, (compress ⟨(width : Int), (height : Int), some pixels⟩).compressed_data = some buf ∧
      height + totalPayloadBits width height pixels ≤ 8 * (buf.drop 9).length ∧
      8 * (buf.drop 9).length < height + totalPayloadBits width height pixels + 8 ∧
      ∀ (buf2 : List Nat) (beyond : Nat → Nat), buf2.length = buf.length →
        buf2.take 9 = buf.take 9 → (∀ x ∈ buf2, x < 256) →
        (∀ b, b < height + totalPayloadBits width height pixels →
          lbit (buf2.drop 9) b = lbit (buf.drop 9) b) →
        uncompress ⟨buf2.length, some (pointer_to buf2 beyond)⟩ =
          ⟨(width : Int), (height : Int), some pixels⟩ := by
  have hpx := bytes_ok_of_forall_mem pixels hbytes
  obtain ⟨pl, hc, hpl, _, hpres, hcode⟩ := compress_spec width height pixels hw hh hlen hpx
  have hT := payload_code_upto_length width height pixels hlen height (Nat.le_refl _)
  have hhdr := header_of_length (width : Int) (height : Int)
  rw [bytesTaken_eq] at hpl
  refine ⟨header_of width height ++ pl, by rw [hc], ?_, ?_, ?_⟩
  · rw [drop_header _ _ hhdr, hpl, ← hT]; omega
  · rw [drop_header _ _ hhdr, hpl, ← hT]; omega
  · intro buf2 beyond hl2 hhead hb2 hsame
    rw [drop_header _ _ hhdr] at hsame
    have hsplit : buf2 = header_of width height ++ buf2.drop 9 := by
      have := List.take_append_drop 9 buf2
      rw [hhead, ← hhdr, List.take_left, hhdr] at this
      exact this.symm
    have hl3 : (buf2.drop 9).length = pl.length := by
      rw [List.length_drop, hl2, List.length_append, hhdr]; omega
    rw [hsplit]
    exact uncompress_same_bits width height pixels pl (buf2.drop 9) beyond hwi hhi hlen hpx hl3
      (bytes_ok_drop _ _ (bytes_ok_of_forall_mem buf2 hb2)) (by rw [hpl]; omega) hpres hcode
      (by rw [hT]; exact hsame)

/-- Witness for C19: the 1 x 2 image with pixels 0x55, 0x00, whose padding bit 14 is set. -/
theorem compress_padding_unread_witness :
    ∃ buf, (compress ⟨((1 : Nat) : Int), ((2 : Nat) : Int),
        some [0x55, 0x00]⟩).compressed_data = some buf ∧
      2 + totalPayloadBits 1 2 [0x55, 0x00] ≤ 8 * (buf.drop 9).length ∧
      8 * (buf.drop 9).length < 2 + totalPayloadBits 1 2 [0x55, 0x00] + 8 ∧
      ∀ (buf2 : List Nat) (beyond : Nat → Nat), buf2.length = buf.length →
        buf2.take 9 = buf.take 9 → (∀ x ∈ buf2, x < 256) →
        (∀ b, b < 2 + totalPayloadBits 1 2 [0x55, 0x00] →
          lbit (buf2.drop 9) b = lbit (buf.drop 9) b) →
        uncompress ⟨buf2.length, some (pointer_to buf2 beyond)⟩ =
          ⟨((1 : Nat) : Int), ((2 : Nat) : Int), some [0x55, 0x00]⟩ :=
  compress_padding_unread 1 2 [0x55, 0x00] (by decide) (by decide) (by decide) (by decide)
    (by decide) (by decide)

/-- Claim C20 (worst-case expansion bound). For every image with width > 0 and height > 0 the
length of `compress image` is at most
9 + ceil((height + height * (8 * width + 2 * ceil(width / 4))) / 8) bytes, and this bound is
attained exactly when every chunk of every row is neither all 0xFF nor all 0x00. -/
theorem compress_worst_case_length (width height : Nat) (pixels : List Nat)
    (hw : 0 < width) (hh : 0 < height)
    (hlen : pixels.length = width * height) (hbytes : ∀ p ∈ pixels, p < 256) :
    (compress ⟨(width : Int), (height : Int), some pixels⟩).size_bytes ≤
      9 + ⌈((height + height * (8 * width + 2 * ⌈((width : ℕ) : ℚ) / 4⌉₊) : ℕ) : ℚ) / 8⌉₊ ∧
    ((compress ⟨(width : Int), (height : Int), some pixels⟩).size_bytes =
        9 + ⌈((height + height * (8 * width + 2 * ⌈((width : ℕ) : ℚ) / 4⌉₊) : ℕ) : ℚ) / 8⌉₊ ↔
      ∀ j, j < height → ∀ c, c < ⌈((width : ℕ) : ℚ) / 4⌉₊ →
        span_literal (span_of (row_of width pixels j) c)) := by
  obtain ⟨pl, hc, _, _, _, _⟩ :=
    compress_spec width height pixels hw hh hlen (bytes_ok_of_forall_mem pixels hbytes)
  obtain ⟨b1, b2, b3⟩ :=
    payload_code_upto_bounds width height pixels hw hlen height (Nat.le_refl _)
  have hod : offset_data = 9 := rfl
  rw [hc, ceil_div_four, ceil_div_eight]
  simp only [bytesTaken_eq, hod]
  refine ⟨by omega, ?_, ?_⟩
  · intro heq
    by_contra hne
    have hex : ∃ r, r < height ∧ ∃ k, k < (width + 3) / 4 ∧
        ¬ span_literal (span_of (row_of width pixels r) k) := by
      by_contra hno
      apply hne
      intro j hj c hcn
      by_contra hnl
      exact hno ⟨j, hj, c, hcn, hnl⟩
    have := b3 hex
    omega
  · intro hall
    have := b2 hall
    omega

/-- Witness for C20: a 5 x 2 image whose chunks are all literal. -/
theorem compress_worst_case_length_witness :
    (compress ⟨((5 : Nat) : Int), ((2 : Nat) : Int),
        some [1, 2, 3, 4, 5, 6, 7, 8, 9, 10]⟩).size_bytes ≤
      9 + ⌈((2 + 2 * (8 * 5 + 2 * ⌈((5 : ℕ) : ℚ) / 4⌉₊) : ℕ) : ℚ) / 8⌉₊ ∧
    ((compress ⟨((5 : Nat) : Int), ((2 : Nat) : Int),
        some [1, 2, 3, 4, 5, 6, 7, 8, 9, 10]⟩).size_bytes =
        9 + ⌈((2 + 2 * (8 * 5 + 2 * ⌈((5 : ℕ) : ℚ) / 4⌉₊) : ℕ) : ℚ) / 8⌉₊ ↔
      ∀ j, j < 2 → ∀ c, c < ⌈((5 : ℕ) : ℚ) / 4⌉₊ →
        span_literal (span_of (row_of 5 [1, 2, 3, 4, 5, 6, 7, 8, 9, 10] j) c)) :=
  compress_worst_case_length 5 2 [1, 2, 3, 4, 5, 6, 7, 8, 9, 10] (by decide) (by decide)
    (by decide) (by decide)

/-! ### How far the accesses of the compressor reach

No access of `compress` lies further than one byte past the scratch buffer or the resized
output vector. -/

theorem write_chunk_accesses_le (n : Nat) : ∀ b x,
    x ∈ Bitter.write_chunk_accesses b n → x ≤ (b + 8 * n) / 8 := by
  induction n with
  | zero => intro b x hx; simp [Bitter.write_chunk_accesses] at hx
  | succ n ih =>
    intro b x hx
    simp only [Bitter.write_chunk_accesses, CHAR_BIT, List.mem_cons] at hx
    rcases hx with h | h | h | h | h
    · omega
    · omega
    · omega
    · omega
    · have := ih (b + 8) x h
      omega

theorem compress_chunk_bits_le (w : Nat) (raw_row : List Nat) (i : Nat) (st : RowState) :
    (compress_chunk w raw_row i st).row_buffer_bits ≤
      st.row_buffer_bits + 2 + 8 * (min w (i + 4) - i) := by
  unfold compress_chunk
  simp only [chunk_size_bytes, CHAR_BIT]
  split
  · dsimp only; omega
  · split
    · dsimp only; omega
    · dsimp only; omega

theorem compress_chunk_accesses_le (w : Nat) (raw_row : List Nat) (i : Nat) (st : RowState)
    (x : Nat) (hx : x ∈ compress_chunk_accesses w raw_row i st) :
    x ≤ (st.row_buffer_bits + 2 + 8 * (min w (i + 4) - i)) / 8 := by
  unfold compress_chunk_accesses at hx
  simp only [chunk_size_bytes, CHAR_BIT] at hx
  split at hx
  · simp only [List.mem_singleton] at hx
    omega
  · split at hx
    · simp only [List.mem_cons, List.mem_singleton, List.not_mem_nil, or_false] at hx
      rcases hx with h | h <;> omega
    · simp only [List.cons_append, List.nil_append, List.mem_cons] at hx
      rcases hx with h | h | h
      · omega
      · omega
      · exact write_chunk_accesses_le _ _ _ h

theorem compress_row_bits_le (w : Nat) (raw_row : List Nat) (st : RowState)
    (hst : st.row_buffer_bits = 0) :
    (compress_row w raw_row w 0 st).row_buffer_bits ≤ 8 * w + 2 * ((w + 3) / 4) := by
  have key := compress_row_induct w raw_row
    (fun c s => s.row_buffer_bits ≤ 8 * min (4 * c) w + 2 * c)
    (by
      intro c s hc hP
      have := compress_chunk_bits_le w raw_row (4 * c) s
      omega)
    w 0 st (by omega) (by omega) (by dsimp only; omega)
  simp only [Nat.mul_zero] at key
  omega

theorem compress_row_accesses_le (w : Nat) (raw_row : List Nat) :
    ∀ fuel c st, c ≤ (w + 3) / 4 → st.row_buffer_bits ≤ 8 * min (4 * c) w + 2 * c →
      ∀ x, x ∈ compress_row_accesses w raw_row fuel (4 * c) st → x ≤ max_row_len_bytes w := by
  intro fuel
  induction fuel with
  | zero => intro c st _ _ x hx; simp [compress_row_accesses] at hx
  | succ fuel ih =>
    intro c st hc hbits x hx
    unfold compress_row_accesses at hx
    by_cases h : 4 * c < w
    · rw [if_pos h, List.mem_append] at hx
      have hmrl := max_row_len_bytes_eq w (by omega)
      rw [bytesTaken_eq] at hmrl
      rcases hx with hx | hx
      · have := compress_chunk_accesses_le w raw_row (4 * c) st x hx
        omega
      · have hb := compress_chunk_bits_le w raw_row (4 * c) st
        have e : 4 * c + 4 = 4 * (c + 1) := by omega
        rw [e] at hx
        exact ih (c + 1) _ (by omega) (by omega) x hx
    · rw [if_neg h] at hx
      simp at hx

/-- Every byte offset `compress` touches in the scratch buffer while it encodes a row is at
most the capacity `max_row_len_bytes` and can be equal to it. -/
theorem compress_scratch_accesses_le (w : Nat) (raw_row rb : List Nat) (x : Nat)
    (hx : x ∈ compress_row_accesses w raw_row w 0 ⟨rb, 0, true⟩) :
    x ≤ max_row_len_bytes w :=
  compress_row_accesses_le w raw_row w 0 ⟨rb, 0, true⟩ (Nat.zero_le _) (by simp) x
    (by simpa using hx)

/-- Every byte offset iteration `j` of the row loop touches in the output vector is at most
the size the vector was resized to and can be equal
to it. -/
theorem compress_output_accesses_le (w h : Nat) (px : List Nat) (j : Nat) (st : OutState)
    (hw : 0 < w) (hj : j < h) (x : Nat)
    (hx : x ∈ compress_iter_accesses w h px j st) : x ≤ compress_iter_size w h st := by
  have hbits := compress_row_bits_le w (px.drop (w * j)) ⟨st.row_buffer, 0, true⟩ rfl
  have hmrl := max_row_len_bytes_eq w hw
  unfold compress_iter_accesses at hx
  unfold compress_iter_size
  simp only [CHAR_BIT, bytesTaken_eq] at hx hmrl ⊢
  have hod : offset_data = 9 := rfl
  split at hx
  · simp only [List.mem_singleton] at hx
    omega
  · simp only [List.mem_cons, List.mem_map] at hx
    rcases hx with h1 | ⟨k, hk, rfl⟩
    · omega
    · have := write_chunk_accesses_le _ _ _ hk
      omega

end Barch
